import Mathlib

/-!
Verification of the string extraction / reconstruction and batching-with-retry
pipeline of the deepl-translate-github-action repository (src/src/utils.ts).

JavaScript values are modelled as follows: JSON documents become the mutual
inductive `JValue`/`JList`/`JFields` (an object is an ordered association list
of fields, mirroring JavaScript's ordered own-property enumeration); strings
are Lean `String`s manipulated through their character lists; the provider and
time are made explicit (the retry loop records the number of calls and the
list of delays it would await).  Loops of the source that are not structurally
recursive are embedded with an explicit fuel parameter; sufficiency of the
fuel is proved where the loop terminates, and `Option` results keep
non-termination observable where it does not.
-/

mutual

inductive JValue where
  | str (s : String)
  | num (n : Int)
  | jbool (b : Bool)
  | null
  | arr (elems : JList)
  | obj (fields : JFields)
deriving DecidableEq, Repr

inductive JList where
  | nil
  | cons (v : JValue) (tl : JList)
deriving DecidableEq, Repr

inductive JFields where
  | nil
  | cons (k : String) (v : JValue) (tl : JFields)
deriving DecidableEq, Repr

end

/-! ### Basic string machinery shared by the embedded functions

JavaScript `indexOf`/`includes`/`replace` work on strings; we model them as
scans over `List Char`. -/

/-- JavaScript `s.includes(search)` (substring containment), as a scan. -/
def jsIncludesAux (search : List Char) : List Char → Bool
  | [] => search.isEmpty
  | c :: cs => search.isPrefixOf (c :: cs) || jsIncludesAux search cs

/-- JavaScript `s.includes(sub)`. -/
def jsIncludes (s sub : String) : Bool := jsIncludesAux sub.data s.data

/-- Literal first-occurrence replacement: replace the first occurrence of
`search` by `repl` verbatim, or `none` when there is no occurrence.  This is
the core of JavaScript `str.replace(search, repl)`; the full semantics,
which also expands the ECMAScript substitution patterns of `repl`, is
`replaceFirstAux` below, and the two agree whenever `repl` contains no
dollar character (`replaceFirstAux_eq_lit`). -/
def replaceFirstLit (search repl : List Char) : List Char → Option (List Char)
  | [] => if search.isEmpty then some repl else none
  | c :: cs =>
    if search.isPrefixOf (c :: cs) then some (repl ++ (c :: cs).drop search.length)
    else match replaceFirstLit search repl cs with
      | none => none
      | some r => some (c :: r)

/-- The `replaceAll` loop over the literal replacement core, with fuel
counting the number of single replacements performed; agrees with the
faithful `replaceAllFuel` below whenever the replacement contains no dollar
character (`replaceAllFuel_eq_lit`). -/
def replaceAllLit (search repl : List Char) (fuel : Nat) (s : List Char) : Option (List Char) :=
  match replaceFirstLit search repl s with
  | none => some s
  | some s2 =>
    match fuel with
    | 0 => none
    | fuel' + 1 => replaceAllLit search repl fuel' s2

/-- ECMAScript `GetSubstitution` for a string pattern (so there are no
capture groups): expand the special replacement patterns of `repl`, where
`matched` is the matched substring and `before`/`after` are the parts of the
subject before and after the match.  `$$` yields a literal dollar, `$&` the
matched substring, a dollar followed by the code unit 96 (backquote) the
part before the match, and a dollar followed by the code unit 39 (single
quote) the part after the match; any other dollar — including `$1`-style
references, since a string pattern has no captures — is literal. -/
def getSubstitution (matched before after : List Char) : List Char → List Char
  | [] => []
  | c :: rest =>
    if c = '$' then
      match rest with
      | [] => ['$']
      | c2 :: rest2 =>
        if c2 = '$' then '$' :: getSubstitution matched before after rest2
        else if c2 = '&' then matched ++ getSubstitution matched before after rest2
        else if c2 = Char.ofNat 96 then before ++ getSubstitution matched before after rest2
        else if c2 = Char.ofNat 39 then after ++ getSubstitution matched before after rest2
        else '$' :: c2 :: getSubstitution matched before after rest2
    else c :: getSubstitution matched before after rest

/-- Split at the first occurrence of `search`: `some (before, after)` with
the subject equal to `before ++ search ++ after` and `before` shortest, or
`none` when there is no occurrence. -/
def splitFirst (search : List Char) : List Char → Option (List Char × List Char)
  | [] => if search.isEmpty then some ([], []) else none
  | c :: cs =>
    if search.isPrefixOf (c :: cs) then some ([], (c :: cs).drop search.length)
    else match splitFirst search cs with
      | none => none
      | some pr => some (c :: pr.1, pr.2)

/-- JavaScript `str.replace(search, repl)` for a plain string `search`:
replace the first occurrence, expanding the dollar substitution patterns of
`repl` against the match, or `none` when there is no occurrence (the
caller's `indexOf` guard). -/
def replaceFirstAux (search repl s : List Char) : Option (List Char) :=
  match splitFirst search s with
  | none => none
  | some pr => some (pr.1 ++ getSubstitution search pr.1 pr.2 repl ++ pr.2)

/-- The `replaceAll` loop of `utils.ts` (`while (indexOf != -1) replace`),
embedded with fuel counting the number of single replacements performed;
`none` means the loop did not finish within `fuel` replacements, so the
source loop terminates on an input iff some fuel returns `some`. -/
def replaceAllFuel (search repl : List Char) (fuel : Nat) (s : List Char) : Option (List Char) :=
  match replaceFirstAux search repl s with
  | none => some s
  | some s2 =>
    match fuel with
    | 0 => none
    | fuel' + 1 => replaceAllFuel search repl fuel' s2

theorem getSubstitution_no_dollar (matched before after : List Char) :
    ∀ repl, '$' ∉ repl → getSubstitution matched before after repl = repl := by
  intro repl
  induction repl with
  | nil => intro h; rfl
  | cons c rest ih =>
    intro h
    have hc : ¬ c = '$' := fun hceq => h (hceq ▸ List.mem_cons_self _ _)
    rw [getSubstitution.eq_def]
    dsimp only
    rw [if_neg hc, ih (fun hm => h (List.mem_cons_of_mem _ hm))]

theorem replaceFirstLit_eq_split (search repl : List Char) :
    ∀ s, replaceFirstLit search repl s =
      Option.map (fun pr => pr.1 ++ repl ++ pr.2) (splitFirst search s) := by
  intro s
  induction s with
  | nil =>
    by_cases h : search.isEmpty
    · simp [replaceFirstLit, splitFirst, h]
    · simp [replaceFirstLit, splitFirst, h]
  | cons c cs ih =>
    by_cases h : search.isPrefixOf (c :: cs)
    · simp [replaceFirstLit, splitFirst, h]
    · rw [replaceFirstLit, if_neg h, splitFirst, if_neg h, ih]
      cases hs : splitFirst search cs with
      | none => rfl
      | some pr => simp

theorem replaceFirstAux_eq_lit (search repl : List Char) (hd : '$' ∉ repl) :
    ∀ s, replaceFirstAux search repl s = replaceFirstLit search repl s := by
  intro s
  rw [replaceFirstAux, replaceFirstLit_eq_split]
  cases hs : splitFirst search s with
  | none => rfl
  | some pr =>
    dsimp only
    rw [getSubstitution_no_dollar search pr.1 pr.2 repl hd]
    rfl

theorem replaceAllFuel_eq_lit (search repl : List Char) (hd : '$' ∉ repl) :
    ∀ fuel s, replaceAllFuel search repl fuel s = replaceAllLit search repl fuel s := by
  intro fuel
  induction fuel with
  | zero =>
    intro s
    rw [replaceAllFuel, replaceAllLit, replaceFirstAux_eq_lit search repl hd]
  | succ f ih =>
    intro s
    rw [replaceAllFuel, replaceAllLit, replaceFirstAux_eq_lit search repl hd]
    cases h : replaceFirstLit search repl s with
    | none => rfl
    | some s2 => exact ih s2

/-- `replaceAll str search ''` (deletion), run with provably sufficient fuel:
with an empty replacement every replacement shortens the string, so
`s.length + 1` rounds always finish. -/
def stripAll (search : List Char) (s : List Char) : List Char :=
  (replaceAllFuel search [] (s.length + 1) s).getD s

/-- `removeKeepTagsFromString` from `utils.ts`: no-op unless the string
contains `<keep>`; otherwise delete all `<keep>` then all `</keep>`
occurrences via the `replaceAll` loop. -/
def removeKeepTagsFromString (str : String) : String :=
  if !(jsIncludes str "<keep>") then str
  else
    let a := stripAll "<keep>".data str.data
    ⟨stripAll "</keep>".data a⟩

/-! ### The retry loop (`translateWithExponentialBackoffRetry`)

The provider is a function from the attempt index to an outcome; the result
records how many provider calls were made and the backoff delays awaited, in
order. -/

/-- A JavaScript error as inspected by the retry loop (`error.message`,
`error.status`). -/
structure JsError where
  message : Option String
  status : Option Nat
deriving DecidableEq, Repr

/-- `error.message?.includes('Too many requests') || error.status === 429`. -/
def isRateLimitError (e : JsError) : Bool :=
  (match e.message with
   | some m => jsIncludes m "Too many requests"
   | none => false) || e.status == some 429

/-- Outcome of one provider call (`translator.translateText`). -/
inductive ProviderOutcome (α : Type) where
  | ok (result : α)
  | err (e : JsError)
deriving DecidableEq, Repr

/-- Observable outcome of the retry loop: the value or error, the number of
provider calls made, and the delays awaited before retries, in order. -/
inductive RetryOutcome (α : Type) where
  | success (result : α) (calls : Nat) (delays : List Nat)
  | failure (e : JsError) (calls : Nat) (delays : List Nat)
deriving DecidableEq, Repr

/-- The `for (attempt = 0; attempt <= maxRetries; attempt++)` body of
`translateWithExponentialBackoffRetry`; `remaining` is the number of loop
iterations left (initially `maxRetries + 1`), so reaching `0` is the
function's final unreachable `throw new Error(...)`. -/
def retryGo {α : Type} (provider : Nat → ProviderOutcome α) (maxRetries baseDelay : Nat) :
    Nat → Nat → List Nat → RetryOutcome α
  | 0, attempt, delays =>
    .failure ⟨some "Unexpected error in translateWithRetry", none⟩ attempt delays
  | remaining + 1, attempt, delays =>
    match provider attempt with
    | .ok v => .success v (attempt + 1) delays
    | .err e =>
      if isRateLimitError e then
        if attempt = maxRetries then .failure e (attempt + 1) delays
        else retryGo provider maxRetries baseDelay remaining (attempt + 1)
          (delays ++ [baseDelay * 2 ^ attempt])
      else .failure e (attempt + 1) delays

/-- `translateWithExponentialBackoffRetry` (defaults in the source:
`maxRetries = 5`, `baseDelay = 1000`). -/
def translateWithExponentialBackoffRetry {α : Type} (provider : Nat → ProviderOutcome α)
    (maxRetries baseDelay : Nat) : RetryOutcome α :=
  retryGo provider maxRetries baseDelay (maxRetries + 1) 0 []

/-! ### Batching (`translateStrings`)

`translateStrings` masks every source string and then packs the masked list
greedily by UTF-8 byte size; each sealed batch is handed to the (external)
translation call.  We embed the packing itself. -/

/-- `128 * 1024` from the source. -/
def maxRequestSizeBytes : Nat := 128 * 1024

/-- `2048` from the source. -/
def estimatedOverheadBytes : Nat := 2048

/-- `maxRequestSizeBytes - estimatedOverheadBytes` from the source. -/
def maxTextSizeBytes : Nat := maxRequestSizeBytes - estimatedOverheadBytes

/-- `new TextEncoder().encode(text).length`: the UTF-8 byte size. -/
def textSizeBytes (text : String) : Nat := text.utf8ByteSize

/-- The greedy batching loop of `translateStrings`, generalised over the byte
ceiling `C`; `currentBatch`/`currentBatchSize` are the loop's accumulators.
The final `if (currentBatch.length > 0)` push is the `[]` case. -/
def batchLoop (C : Nat) : List String → List String → Nat → List (List String)
  | [], currentBatch, _ =>
    if currentBatch.length > 0 then [currentBatch] else []
  | text :: rest, currentBatch, currentBatchSize =>
    if currentBatchSize + textSizeBytes text > C then
      (if currentBatch.length > 0 then [currentBatch] else []) ++
        batchLoop C rest [text] (textSizeBytes text)
    else
      batchLoop C rest (currentBatch ++ [text]) (currentBatchSize + textSizeBytes text)

/-- The batches `translateStrings` builds from an (already masked) list of
texts with ceiling `C`. -/
def batchStrings (texts : List String) (C : Nat) : List (List String) :=
  batchLoop C texts [] 0

/-! ### Properties of the greedy batching (claim C2) -/

/-- Total UTF-8 size of a batch. -/
def batchSize (b : List String) : Nat := (b.map textSizeBytes).sum

theorem batchLoop_join (C : Nat) :
    ∀ (texts currentBatch : List String) (sz : Nat),
      (batchLoop C texts currentBatch sz).flatten = currentBatch ++ texts := by
  intro texts
  induction texts with
  | nil =>
    intro cur sz
    cases cur <;> simp [batchLoop]
  | cons t rest ih =>
    intro cur sz
    by_cases h : sz + textSizeBytes t > C
    · cases cur <;> simp [batchLoop, h, ih]
    · simp [batchLoop, h, ih]

theorem batchLoop_mem (C : Nat) :
    ∀ (texts currentBatch : List String) (sz : Nat),
      sz = batchSize currentBatch →
      (currentBatch.length ≤ 1 ∨ sz ≤ C) →
      ∀ b ∈ batchLoop C texts currentBatch sz,
        (1 < b.length → batchSize b ≤ C) ∧ (∀ s ∈ b, C < textSizeBytes s → b = [s]) := by
  have sealed : ∀ (cur : List String) (sz : Nat), sz = batchSize cur →
      (cur.length ≤ 1 ∨ sz ≤ C) →
      (1 < cur.length → batchSize cur ≤ C) ∧
        (∀ s ∈ cur, C < textSizeBytes s → cur = [s]) := by
    intro cur sz h1 h2
    subst h1
    rcases h2 with h2 | h2
    · refine ⟨fun hlen => absurd hlen (by omega), ?_⟩
      intro s hs _
      cases cur with
      | nil => cases hs
      | cons x tl =>
        cases tl with
        | nil =>
          have hsx : s = x := by simpa using hs
          simp [hsx]
        | cons y tl2 => simp at h2
    · refine ⟨fun _ => h2, fun s hs hbig => absurd h2 ?_⟩
      have hmem : textSizeBytes s ∈ cur.map textSizeBytes := List.mem_map_of_mem _ hs
      have := List.single_le_sum (by intro x _; omega) _ hmem
      unfold batchSize
      omega
  intro texts
  induction texts with
  | nil =>
    intro cur sz h1 h2 b hb
    by_cases h : cur.length > 0 <;> simp [batchLoop, h] at hb
    subst hb; exact sealed _ sz h1 h2
  | cons t rest ih =>
    intro cur sz h1 h2 b hb
    by_cases h : sz + textSizeBytes t > C
    · rw [batchLoop, if_pos h] at hb
      rcases List.mem_append.1 hb with hb | hb
      · by_cases h3 : cur.length > 0 <;> simp [h3] at hb
        subst hb; exact sealed _ sz h1 h2
      · exact ih [t] (textSizeBytes t) (by simp [batchSize]) (Or.inl (by simp)) b hb
    · rw [batchLoop, if_neg h] at hb
      refine ih (cur ++ [t]) (sz + textSizeBytes t) ?_ (Or.inr (by omega)) b hb
      simp [batchSize, h1]

/-- C2: the greedy batching in `translateStrings` (generalised over the byte
ceiling `C`): the in-order concatenation of the batches is exactly the input
list, every batch with more than one string fits in `C` bytes, and any string
larger than `C` bytes sits alone in its own one-element batch. -/
theorem translateStrings_batching (texts : List String) (C : Nat) :
    (batchStrings texts C).flatten = texts ∧
    (∀ b ∈ batchStrings texts C, 1 < b.length → batchSize b ≤ C) ∧
    (∀ b ∈ batchStrings texts C, ∀ s ∈ b, C < textSizeBytes s → b = [s]) := by
  refine ⟨?_, ?_, ?_⟩
  · simpa using batchLoop_join C texts [] 0
  · intro b hb
    exact (batchLoop_mem C texts [] 0 (by simp [batchSize]) (Or.inl (by simp)) b hb).1
  · intro b hb
    exact (batchLoop_mem C texts [] 0 (by simp [batchSize]) (Or.inl (by simp)) b hb).2

/-- Concrete instance of `translateStrings_batching`: the oversized string
`"aaaaaa"` (6 bytes > ceiling 4) ships alone, and the batches concatenate
back to the input. -/
theorem translateStrings_batching_witness :
    (batchStrings ["aaaaaa", "x"] 4).flatten = ["aaaaaa", "x"] ∧ ["aaaaaa"] = ["aaaaaa"] := by
  refine ⟨(translateStrings_batching ["aaaaaa", "x"] 4).1, ?_⟩
  exact (translateStrings_batching ["aaaaaa", "x"] 4).2.2 ["aaaaaa"] (by decide)
    "aaaaaa" (by decide) (by decide)

/-! ### Properties of the retry loop (claims C3, C4, C5) -/

/-- C3: if the provider is rate-limited on its first three calls and succeeds
on the fourth, the retry loop (defaults `maxRetries = 5`, `baseDelay = 1000`)
makes exactly 4 provider calls and waits 1000, 2000 and 4000 ms, in that
order, before returning the successful result. -/
theorem retry_three_rate_limits_then_success {α : Type} (provider : Nat → ProviderOutcome α)
    (v : α)
    (h0 : ∃ e, provider 0 = .err e ∧ isRateLimitError e = true)
    (h1 : ∃ e, provider 1 = .err e ∧ isRateLimitError e = true)
    (h2 : ∃ e, provider 2 = .err e ∧ isRateLimitError e = true)
    (h3 : provider 3 = .ok v) :
    translateWithExponentialBackoffRetry provider 5 1000 =
      .success v 4 [1000, 2000, 4000] := by
  obtain ⟨e0, he0, hr0⟩ := h0
  obtain ⟨e1, he1, hr1⟩ := h1
  obtain ⟨e2, he2, hr2⟩ := h2
  unfold translateWithExponentialBackoffRetry
  show retryGo provider 5 1000 6 0 [] = _
  rw [show (6 : Nat) = 5 + 1 from rfl, retryGo, he0]
  dsimp only
  rw [hr0]
  norm_num
  rw [show (5 : Nat) = 4 + 1 from rfl, retryGo, he1]
  dsimp only
  rw [hr1]
  norm_num
  rw [show (4 : Nat) = 3 + 1 from rfl, retryGo, he2]
  dsimp only
  rw [hr2]
  norm_num
  rw [show (3 : Nat) = 2 + 1 from rfl, retryGo, h3]

/-- Concrete instance for `retry_three_rate_limits_then_success`: a provider
that returns HTTP 429 on calls 0, 1, 2 and succeeds on call 3. -/
def rlThenOkProvider : Nat → ProviderOutcome Nat := fun i =>
  if i < 3 then .err ⟨none, some 429⟩ else .ok 42

theorem retry_three_rate_limits_then_success_witness :
    translateWithExponentialBackoffRetry rlThenOkProvider 5 1000 =
      .success 42 4 [1000, 2000, 4000] :=
  retry_three_rate_limits_then_success rlThenOkProvider 42
    ⟨⟨none, some 429⟩, rfl, by decide⟩ ⟨⟨none, some 429⟩, rfl, by decide⟩
    ⟨⟨none, some 429⟩, rfl, by decide⟩ rfl

/-- C4: a first failure that is not a rate-limit signal is propagated at once:
one provider call, no delay, the error itself as outcome, for any
`maxRetries`/`baseDelay`. -/
theorem retry_fatal_immediate {α : Type} (provider : Nat → ProviderOutcome α) (e : JsError)
    (maxRetries baseDelay : Nat)
    (h : provider 0 = .err e) (hf : isRateLimitError e = false) :
    translateWithExponentialBackoffRetry provider maxRetries baseDelay = .failure e 1 [] := by
  unfold translateWithExponentialBackoffRetry
  rw [retryGo, h]
  dsimp only
  rw [hf]
  simp

/-- Concrete instance for `retry_fatal_immediate`: an authentication-style
error (HTTP 403) is not retried. -/
def fatalProvider : Nat → ProviderOutcome Nat := fun _ =>
  .err ⟨some "Authorization failure", some 403⟩

theorem retry_fatal_immediate_witness :
    translateWithExponentialBackoffRetry fatalProvider 5 1000 =
      .failure ⟨some "Authorization failure", some 403⟩ 1 [] :=
  retry_fatal_immediate fatalProvider ⟨some "Authorization failure", some 403⟩ 5 1000
    rfl (by decide)

theorem retryGo_all_rate_limited {α : Type} (provider : Nat → ProviderOutcome α)
    (errs : Nat → JsError) (maxRetries baseDelay : Nat)
    (h : ∀ i, provider i = .err (errs i)) (hr : ∀ i, isRateLimitError (errs i) = true) :
    ∀ (remaining attempt : Nat) (delays : List Nat),
      attempt + remaining = maxRetries + 1 → 0 < remaining →
      retryGo provider maxRetries baseDelay remaining attempt delays =
        .failure (errs maxRetries) (maxRetries + 1)
          (delays ++ (List.range' attempt (remaining - 1) 1).map (fun k => baseDelay * 2 ^ k)) := by
  intro remaining
  induction remaining with
  | zero => intro attempt delays _ h2; omega
  | succ r ih =>
    intro attempt delays hsum _
    rw [retryGo, h attempt]
    dsimp only
    rw [hr attempt]
    simp only [if_true]
    by_cases hend : attempt = maxRetries
    · have hr0 : r = 0 := by omega
      subst hend hr0
      simp [List.range']
    · rw [if_neg hend]
      have hr1 : 0 < r := by omega
      rw [ih (attempt + 1) (delays ++ [baseDelay * 2 ^ attempt]) (by omega) hr1]
      have hrange : List.range' attempt (r + 1 - 1) 1 =
          attempt :: List.range' (attempt + 1) (r - 1) 1 := by
        have : r + 1 - 1 = (r - 1) + 1 := by omega
        rw [this, List.range'_succ]
      rw [hrange]
      simp

/-- C5: if every provider call is rate-limited, the retry loop makes exactly
`maxRetries + 1` provider calls, waits the `maxRetries` backoff delays
`baseDelay * 2 ^ k` (no delay after the final attempt), and fails with the
error of the last call. -/
theorem retry_exhaustion {α : Type} (provider : Nat → ProviderOutcome α)
    (errs : Nat → JsError) (maxRetries baseDelay : Nat)
    (h : ∀ i, provider i = .err (errs i)) (hr : ∀ i, isRateLimitError (errs i) = true) :
    translateWithExponentialBackoffRetry provider maxRetries baseDelay =
      .failure (errs maxRetries) (maxRetries + 1)
        ((List.range maxRetries).map (fun k => baseDelay * 2 ^ k)) := by
  unfold translateWithExponentialBackoffRetry
  rw [retryGo_all_rate_limited provider errs maxRetries baseDelay h hr (maxRetries + 1) 0 []
    (by omega) (by omega)]
  rw [List.range_eq_range']
  simp

/-- Concrete instance for `retry_exhaustion`: a provider that always answers
"Too many requests" is called 6 times with the default 5 retries, and the 5
delays 1000, 2000, 4000, 8000, 16000 are waited. -/
def alwaysRateLimitedProvider : Nat → ProviderOutcome Nat := fun _ =>
  .err ⟨some "Too many requests", none⟩

theorem retry_exhaustion_witness :
    translateWithExponentialBackoffRetry alwaysRateLimitedProvider 5 1000 =
      .failure ⟨some "Too many requests", none⟩ 6
        ((List.range 5).map (fun k => 1000 * 2 ^ k)) :=
  retry_exhaustion alwaysRateLimitedProvider (fun _ => ⟨some "Too many requests", none⟩) 5 1000
    (fun _ => rfl)
    (fun i => show isRateLimitError ⟨some "Too many requests", none⟩ = true by decide)

/-! ### Basic lemmas about the `replaceAll` loop and occurrence search -/

theorem jsIncludesAux_iff (search : List Char) :
    ∀ s, jsIncludesAux search s = true ↔ search <:+: s := by
  intro s
  induction s with
  | nil => simp [jsIncludesAux, List.isEmpty_iff]
  | cons c cs ih =>
    simp [jsIncludesAux, List.infix_cons_iff, ih, List.isPrefixOf_iff_prefix]

theorem replaceFirstLit_eq_none (search repl : List Char) :
    ∀ s, replaceFirstLit search repl s = none ↔ ¬ search <:+: s := by
  intro s
  induction s with
  | nil =>
    by_cases h : search.isEmpty
    · have hs : search = [] := List.isEmpty_iff.1 h
      simp [replaceFirstLit, h, hs]
    · have hs : search ≠ [] := by simpa [List.isEmpty_iff] using h
      simp [replaceFirstLit, h, hs]
  | cons c cs ih =>
    by_cases h : search.isPrefixOf (c :: cs)
    · simp [replaceFirstLit, h, List.infix_cons_iff, List.isPrefixOf_iff_prefix.1 h]
    · have hp : ¬ search <+: (c :: cs) := fun hh => h (List.isPrefixOf_iff_prefix.2 hh)
      rw [replaceFirstLit, if_neg h]
      cases hrec : replaceFirstLit search repl cs with
      | none => simp [List.infix_cons_iff, hp, ih.1 hrec]
      | some r =>
        simp only [hrec]
        constructor
        · intro hc; cases hc
        · intro hni
          exfalso
          have h2 : ¬ search <:+: cs := fun hin => hni (List.infix_cons_iff.2 (Or.inr hin))
          have := ih.2 h2
          rw [hrec] at this
          cases this

theorem replaceFirstLit_nil_length (search : List Char) (hne : search ≠ []) :
    ∀ s r, replaceFirstLit search [] s = some r → r.length < s.length := by
  intro s
  induction s with
  | nil =>
    intro r h
    have hie : search.isEmpty = false := by simp [List.isEmpty_iff, hne]
    simp [replaceFirstLit, hie] at h
  | cons c cs ih =>
    intro r h
    rw [replaceFirstLit] at h
    by_cases hp : search.isPrefixOf (c :: cs)
    · rw [if_pos hp] at h
      have hr : r = (c :: cs).drop search.length := by
        have := h.symm
        simpa using this
      have hlen : 1 ≤ search.length := by
        cases search with
        | nil => exact absurd rfl hne
        | cons a b => simp
      subst hr
      simp only [List.length_drop, List.length_cons]
      omega
    · rw [if_neg hp] at h
      cases hrec : replaceFirstLit search [] cs with
      | none => rw [hrec] at h; cases h
      | some r2 =>
        rw [hrec] at h
        dsimp at h
        cases h
        have := ih r2 hrec
        simp only [List.length_cons]
        omega

theorem replaceAllLit_nil_some (search : List Char) (hne : search ≠ []) :
    ∀ fuel s, s.length < fuel → ∃ r, replaceAllLit search [] fuel s = some r := by
  intro fuel
  induction fuel with
  | zero => intro s h; omega
  | succ f ih =>
    intro s h
    rw [replaceAllLit]
    cases hfirst : replaceFirstLit search [] s with
    | none => exact ⟨s, rfl⟩
    | some s2 =>
      have := replaceFirstLit_nil_length search hne s s2 hfirst
      exact ih s2 (by omega)

theorem replaceAllLit_no_occ (search repl : List Char) :
    ∀ fuel s r, replaceAllLit search repl fuel s = some r →
      replaceFirstLit search repl r = none := by
  intro fuel
  induction fuel with
  | zero =>
    intro s r h
    rw [replaceAllLit] at h
    cases hf : replaceFirstLit search repl s with
    | none => rw [hf] at h; dsimp at h; cases h; exact hf
    | some s2 => rw [hf] at h; dsimp at h; cases h
  | succ f ih =>
    intro s r h
    rw [replaceAllLit] at h
    cases hf : replaceFirstLit search repl s with
    | none => rw [hf] at h; dsimp at h; cases h; exact hf
    | some s2 => rw [hf] at h; dsimp at h; exact ih s2 r h

theorem replaceAllLit_det (search repl : List Char) :
    ∀ fuel1 fuel2 s r1 r2, replaceAllLit search repl fuel1 s = some r1 →
      replaceAllLit search repl fuel2 s = some r2 → r1 = r2 := by
  intro fuel1
  induction fuel1 with
  | zero =>
    intro fuel2 s r1 r2 h1 h2
    rw [replaceAllLit] at h1 h2
    cases hf : replaceFirstLit search repl s with
    | none => rw [hf] at h1 h2; dsimp at h1 h2; cases h1; cases h2; rfl
    | some s2 => rw [hf] at h1; dsimp at h1; cases h1
  | succ f ih =>
    intro fuel2 s r1 r2 h1 h2
    rw [replaceAllLit] at h1 h2
    cases hf : replaceFirstLit search repl s with
    | none => rw [hf] at h1 h2; dsimp at h1 h2; cases h1; cases h2; rfl
    | some s2 =>
      rw [hf] at h1 h2
      dsimp at h1
      cases fuel2 with
      | zero => dsimp at h2; cases h2
      | succ f2 => dsimp at h2; exact ih f2 s2 r1 r2 h1 h2

theorem stripAll_eq_of_fuel (search : List Char) (hne : search ≠ []) (s r : List Char)
    (fuel : Nat) (h : replaceAllLit search [] fuel s = some r) : stripAll search s = r := by
  have hd : ('$' : Char) ∉ ([] : List Char) := List.not_mem_nil _
  obtain ⟨r0, h0⟩ := replaceAllLit_nil_some search hne (s.length + 1) s (by omega)
  have := replaceAllLit_det search [] fuel (s.length + 1) s r r0 h h0
  rw [stripAll, replaceAllFuel_eq_lit search [] hd, h0]
  simpa using this.symm

theorem stripAll_no_occ (search : List Char) (hne : search ≠ []) (s : List Char) :
    ¬ search <:+: stripAll search s := by
  have hd : ('$' : Char) ∉ ([] : List Char) := List.not_mem_nil _
  obtain ⟨r0, h0⟩ := replaceAllLit_nil_some search hne (s.length + 1) s (by omega)
  have hres : stripAll search s = r0 := by
    rw [stripAll, replaceAllFuel_eq_lit search [] hd, h0]
    rfl
  rw [hres]
  exact (replaceFirstLit_eq_none search [] r0).1 (replaceAllLit_no_occ search [] _ s r0 h0)

/-! ### Claim C6: `removeKeepTagsFromString` -/

/-- C6 as stated is false: the claim says all occurrences of both tokens are
removed leaving other content intact, but (a) a string containing `</keep>`
without `<keep>` is returned unchanged (the no-op guard only looks for
`<keep>`), and (b) deleting an occurrence can splice surrounding content into
a fresh occurrence which is then deleted as well, so other content is not
left intact. -/
theorem removeKeepTags_counterexample :
    removeKeepTagsFromString "a</keep>b" = "a</keep>b" ∧
    removeKeepTagsFromString "a</keep>b" ≠ "ab" ∧
    removeKeepTagsFromString "<ke<keep>ep>" = "" := by
  refine ⟨by decide, by decide, by decide⟩

/-- C6 (amended): a string not containing `<keep>` is returned unchanged,
even when it contains `</keep>`; a string containing `<keep>` is processed by
the two deletion loops — each repeatedly deleting the leftmost occurrence
(`<keep>` first, then `</keep>`) until none remains — both of which
terminate, and the result then contains no `</keep>`. -/
theorem removeKeepTags_amended (s : String) :
    (jsIncludes s "<keep>" = false → removeKeepTagsFromString s = s) ∧
    (jsIncludes s "<keep>" = true →
      jsIncludes (removeKeepTagsFromString s) "</keep>" = false ∧
      ∃ fuel1 fuel2 r1, replaceAllFuel "<keep>".data [] fuel1 s.data = some r1 ∧
        replaceAllFuel "</keep>".data [] fuel2 r1 = some (removeKeepTagsFromString s).data) := by
  constructor
  · intro h
    rw [removeKeepTagsFromString, h]
    rfl
  · intro h
    have hd : ('$' : Char) ∉ ([] : List Char) := List.not_mem_nil _
    have hne1 : "<keep>".data ≠ [] := by decide
    have hne2 : "</keep>".data ≠ [] := by decide
    have hres : removeKeepTagsFromString s =
        ⟨stripAll "</keep>".data (stripAll "<keep>".data s.data)⟩ := by
      rw [removeKeepTagsFromString, h]
      rfl
    obtain ⟨r1, h1⟩ :=
      replaceAllLit_nil_some "<keep>".data hne1 (s.data.length + 1) s.data (by omega)
    have hr1 : stripAll "<keep>".data s.data = r1 := by
      rw [stripAll, replaceAllFuel_eq_lit _ _ hd, h1]
      rfl
    obtain ⟨r2, h2⟩ :=
      replaceAllLit_nil_some "</keep>".data hne2 (r1.length + 1) r1 (by omega)
    have hr2 : stripAll "</keep>".data r1 = r2 := by
      rw [stripAll, replaceAllFuel_eq_lit _ _ hd, h2]
      rfl
    constructor
    · rw [hres, hr1]
      show jsIncludesAux "</keep>".data (stripAll "</keep>".data r1) = false
      have := stripAll_no_occ "</keep>".data hne2 r1
      cases hb : jsIncludesAux "</keep>".data (stripAll "</keep>".data r1) with
      | false => rfl
      | true => exact absurd ((jsIncludesAux_iff _ _).1 hb) this
    · refine ⟨s.data.length + 1, r1.length + 1, r1, ?_, ?_⟩
      · rw [replaceAllFuel_eq_lit _ _ hd]
        exact h1
      · rw [replaceAllFuel_eq_lit _ _ hd, hres, hr1]
        show replaceAllLit "</keep>".data [] (r1.length + 1) r1 =
          some (stripAll "</keep>".data r1)
        rw [hr2]
        exact h2

/-- Concrete instance of `removeKeepTags_amended`: a tag-free string passes
through unchanged, and on a properly tagged string the closing token is gone
from the result. -/
theorem removeKeepTags_amended_witness :
    removeKeepTagsFromString "plain text" = "plain text" ∧
    jsIncludes (removeKeepTagsFromString "x<keep>y</keep>z") "</keep>" = false :=
  ⟨(removeKeepTags_amended "plain text").1 (by decide),
   ((removeKeepTags_amended "x<keep>y</keep>z").2 (by decide)).1⟩

/-! ### Claim C10: the `replaceAll` loop

The source loop re-scans the whole string from the start after each single
replacement.  Even with a replacement that does not contain the search
string, the loop can run forever: with `search = "ab"`, `replacement =
"bbaa"` the input `"aabb"` cycles through the two shapes `loopA`/`loopB`
below, growing forever.  A replacement that contains no dollar character
(so it is substituted verbatim) and is strictly shorter than the search
string does guarantee termination. -/

/-- Shape `b^k a a b a^m b`, reached from `"aabb"` after four replacements. -/
def loopA (k m : Nat) : List Char :=
  List.replicate k 'b' ++ 'a' :: 'a' :: 'b' :: (List.replicate m 'a' ++ ['b'])

/-- Shape `b^k a b b a^m b`, the successor of `loopA k (m-2)`. -/
def loopB (k m : Nat) : List Char :=
  List.replicate k 'b' ++ 'a' :: 'b' :: 'b' :: (List.replicate m 'a' ++ ['b'])

theorem replaceFirstLit_skip_b (repl : List Char) :
    ∀ (k : Nat) (l : List Char),
      replaceFirstLit ['a', 'b'] repl (List.replicate k 'b' ++ l) =
        (replaceFirstLit ['a', 'b'] repl l).map (List.replicate k 'b' ++ ·) := by
  intro k
  induction k with
  | zero =>
    intro l
    cases h : replaceFirstLit ['a', 'b'] repl l <;> simp [h]
  | succ n ih =>
    intro l
    rw [List.replicate_succ, List.cons_append, replaceFirstLit]
    have hpf : (['a', 'b'] : List Char).isPrefixOf ('b' :: (List.replicate n 'b' ++ l)) = false := by
      simp [List.isPrefixOf]
    rw [hpf]
    simp only [Bool.false_eq_true, if_false, ih l]
    cases h : replaceFirstLit ['a', 'b'] repl l <;> simp [List.replicate_succ]

theorem replaceFirst_loopA (k m : Nat) :
    replaceFirstLit ['a', 'b'] "bbaa".data (loopA k m) = some (loopB k (m + 2)) := by
  rw [loopA, replaceFirstLit_skip_b]
  have h1 : replaceFirstLit ['a', 'b'] "bbaa".data
      ('a' :: 'a' :: 'b' :: (List.replicate m 'a' ++ ['b'])) =
      some ('a' :: ('b' :: 'b' :: 'a' :: 'a' :: (List.replicate m 'a' ++ ['b']))) := by
    rw [replaceFirstLit]
    have hpf : (['a', 'b'] : List Char).isPrefixOf
        ('a' :: 'a' :: 'b' :: (List.replicate m 'a' ++ ['b'])) = false := by
      simp [List.isPrefixOf]
    rw [hpf]
    simp only [Bool.false_eq_true, if_false]
    rw [replaceFirstLit]
    have hpf2 : (['a', 'b'] : List Char).isPrefixOf
        ('a' :: 'b' :: (List.replicate m 'a' ++ ['b'])) = true := by
      simp [List.isPrefixOf]
    rw [hpf2]
    rfl
  rw [h1, loopB]
  have : ('b' :: 'b' :: 'a' :: 'a' :: (List.replicate m 'a' ++ ['b'])) =
      'b' :: 'b' :: (List.replicate (m + 2) 'a' ++ ['b']) := by
    have := List.replicate_add 2 m 'a'
    simp only [Nat.add_comm m 2] at *
    simp [this]
  rw [this]
  rfl

theorem replaceFirst_loopB (k m : Nat) :
    replaceFirstLit ['a', 'b'] "bbaa".data (loopB k m) = some (loopA (k + 2) m) := by
  rw [loopB, replaceFirstLit_skip_b]
  have h1 : replaceFirstLit ['a', 'b'] "bbaa".data
      ('a' :: 'b' :: 'b' :: (List.replicate m 'a' ++ ['b'])) =
      some ('b' :: 'b' :: 'a' :: 'a' :: 'b' :: (List.replicate m 'a' ++ ['b'])) := by
    rw [replaceFirstLit]
    have hpf : (['a', 'b'] : List Char).isPrefixOf
        ('a' :: 'b' :: 'b' :: (List.replicate m 'a' ++ ['b'])) = true := by
      simp [List.isPrefixOf]
    rw [hpf]
    rfl
  rw [h1, loopA]
  have : List.replicate k 'b' ++ 'b' :: 'b' :: 'a' :: 'a' :: 'b' ::
      (List.replicate m 'a' ++ ['b']) =
      List.replicate (k + 2) 'b' ++ 'a' :: 'a' :: 'b' :: (List.replicate m 'a' ++ ['b']) := by
    have := List.replicate_add k 2 'b'
    simp [this]
  simp [this]

theorem replaceAllLit_loop :
    ∀ (fuel k m : Nat),
      replaceAllLit ['a', 'b'] "bbaa".data fuel (loopA k m) = none ∧
      replaceAllLit ['a', 'b'] "bbaa".data fuel (loopB k m) = none := by
  intro fuel
  induction fuel with
  | zero =>
    intro k m
    constructor
    · rw [replaceAllLit, replaceFirst_loopA]
    · rw [replaceAllLit, replaceFirst_loopB]
  | succ f ih =>
    intro k m
    constructor
    · rw [replaceAllLit, replaceFirst_loopA]
      exact (ih k (m + 2)).2
    · rw [replaceAllLit, replaceFirst_loopB]
      exact (ih (k + 2) m).1

/-- C10 as stated is false: with search `"ab"` (non-empty) and replacement
`"bbaa"` (which does not contain `"ab"`), the `replaceAll` loop never
terminates on input `"aabb"` — no number of replacement rounds reaches the
loop's exit condition. -/
theorem replaceAll_counterexample :
    "ab".data ≠ [] ∧ jsIncludes "bbaa" "ab" = false ∧
    ¬ ∃ fuel r, replaceAllFuel "ab".data "bbaa".data fuel "aabb".data = some r := by
  refine ⟨by decide, by decide, ?_⟩
  rintro ⟨fuel, r, h⟩
  have hd : ('$' : Char) ∉ "bbaa".data := by decide
  rw [replaceAllFuel_eq_lit _ _ hd] at h
  have ha : "aabb".data = loopA 0 0 := by decide
  have hs : "ab".data = ['a', 'b'] := rfl
  rw [ha, hs, (replaceAllLit_loop fuel 0 0).1] at h
  cases h

theorem replaceFirstLit_length_lt (search repl : List Char)
    (hlt : repl.length < search.length) :
    ∀ s r, replaceFirstLit search repl s = some r → r.length < s.length := by
  intro s
  induction s with
  | nil =>
    intro r h
    have hne : search ≠ [] := by
      intro hc; rw [hc] at hlt; simp at hlt
    have hie : search.isEmpty = false := by simp [List.isEmpty_iff, hne]
    simp [replaceFirstLit, hie] at h
  | cons c cs ih =>
    intro r h
    rw [replaceFirstLit] at h
    by_cases hp : search.isPrefixOf (c :: cs)
    · rw [if_pos hp] at h
      have hr : r = repl ++ (c :: cs).drop search.length := by
        have := h.symm
        simpa using this
      have hle : search.length ≤ (c :: cs).length :=
        (List.isPrefixOf_iff_prefix.1 hp).length_le
      subst hr
      simp only [List.length_append, List.length_drop, List.length_cons] at *
      omega
    · rw [if_neg hp] at h
      cases hrec : replaceFirstLit search repl cs with
      | none => rw [hrec] at h; cases h
      | some r2 =>
        rw [hrec] at h
        dsimp at h
        cases h
        have := ih r2 hrec
        simp only [List.length_cons]
        omega

theorem replaceAllLit_short_some (search repl : List Char)
    (hlt : repl.length < search.length) :
    ∀ fuel s, s.length < fuel → ∃ r, replaceAllLit search repl fuel s = some r := by
  intro fuel
  induction fuel with
  | zero => intro s h; omega
  | succ f ih =>
    intro s h
    rw [replaceAllLit]
    cases hfirst : replaceFirstLit search repl s with
    | none => exact ⟨s, rfl⟩
    | some s2 =>
      have := replaceFirstLit_length_lt search repl hlt s s2 hfirst
      exact ih s2 (by omega)

/-- C10 (amended): for every string, non-empty search string and replacement
that contains no dollar character (so it carries no ECMAScript substitution
pattern and is substituted verbatim) and is strictly shorter than the search
string (in particular the empty replacement used by
`removeKeepTagsFromString`, and any replacement this short cannot contain
the search string), the `replaceAll` loop terminates — `str.length + 1`
replacement rounds suffice — the result contains no occurrence of the
search string, and a string with no occurrence is returned unchanged. -/
theorem replaceAll_amended (str search repl : List Char)
    (hne : search ≠ []) (hd : '$' ∉ repl) (hlt : repl.length < search.length) :
    ∃ r, replaceAllFuel search repl (str.length + 1) str = some r ∧
      ¬ search <:+: r ∧ (¬ search <:+: str → r = str) := by
  obtain ⟨r, h⟩ := replaceAllLit_short_some search repl hlt (str.length + 1) str (by omega)
  refine ⟨r, ?_, ?_, ?_⟩
  · rw [replaceAllFuel_eq_lit search repl hd]
    exact h
  · exact (replaceFirstLit_eq_none search repl r).1 (replaceAllLit_no_occ search repl _ str r h)
  · intro hni
    rw [replaceAllLit, (replaceFirstLit_eq_none search repl str).2 hni] at h
    dsimp at h
    exact (Option.some_inj.1 h).symm

/-- Concrete instance of `replaceAll_amended`: replacing `"ab"` by the
shorter, dollar-free `"c"` in `"xaby"` terminates with a result free of
`"ab"`. -/
theorem replaceAll_amended_witness :
    ∃ r, replaceAllFuel "ab".data "c".data ("xaby".data.length + 1) "xaby".data = some r ∧
      ¬ "ab".data <:+: r ∧ (¬ "ab".data <:+: "xaby".data → r = "xaby".data) :=
  replaceAll_amended "xaby".data "ab".data "c".data (by decide) (by decide) (by decide)

/-! ### The dot-notation path codec

`collectAllStringsFromJson` escapes literal dots in keys
(`key.replace(/\./g, '\\.')`) and joins path segments with `.`;
`buildOutputJson` splits on a dot not preceded by a backslash
(`/(?<!\\)\./`) and unescapes each part (`part.replace(/\\./g, '.')` —
note that in this regex the `.` after `\\` is the wildcard, matching any
character except a line terminator). -/

/-- JavaScript line terminators, which the regex wildcard `.` does not
match. -/
def isJsLineTerm (c : Char) : Bool :=
  c == '\n' || c == '\r' || c == Char.ofNat 0x2028 || c == Char.ofNat 0x2029

/-- `key.replace(/\./g, '\\.')`. -/
def escapeKeyAux : List Char → List Char
  | [] => []
  | c :: cs => if c = '.' then '\\' :: '.' :: escapeKeyAux cs else c :: escapeKeyAux cs

/-- Escaping of literal dots in one key. -/
def escapeKey (k : String) : String := ⟨escapeKeyAux k.data⟩

/-- `currentPrefix ? currentPrefix + '.' + escapedKey : escapedKey`
(the empty string is falsy in JavaScript). -/
def joinKey (currentPrefix escapedKey : String) : String :=
  if currentPrefix = "" then escapedKey else currentPrefix ++ "." ++ escapedKey

/-- Scan for `key.split(/(?<!\\)\./)`: split at a dot whose immediately
preceding character is not a backslash; `prev` is that character. -/
def splitOnDotsAux (prev : Option Char) (cur : List Char) : List Char → List (List Char)
  | [] => [cur.reverse]
  | c :: cs =>
    if c = '.' ∧ prev ≠ some '\\' then
      cur.reverse :: splitOnDotsAux (some '.') [] cs
    else
      splitOnDotsAux (some c) (c :: cur) cs

/-- `key.split(/(?<!\\)\./)` on a whole key. -/
def dotSplit (key : String) : List (List Char) := splitOnDotsAux none [] key.data

/-- `part.replace(/\\./g, '.')`: a backslash followed by any
non-line-terminator character collapses to a dot; left to right,
non-overlapping. -/
def decodeSegAux : List Char → List Char
  | [] => []
  | [c] => [c]
  | c :: c2 :: cs =>
    if c = '\\' ∧ isJsLineTerm c2 = false then '.' :: decodeSegAux cs
    else c :: decodeSegAux (c2 :: cs)

/-! ### Flattening (`collectAllStringsFromJson`) -/

/-- `keys`/`values` result arrays of `collectAllStringsFromJson`
(index-paired). -/
structure CollectedStrings where
  keys : List String
  values : List String
deriving DecidableEq, Repr

mutual

/-- Handling of one value in the traversal of `collectAllStringsFromJson`:
a string leaf is emitted under its path; a plain (non-array, non-null)
object is walked with the path as new prefix; everything else is skipped. -/
def collectValue (newKey : String) : JValue → List (String × String)
  | .str s => [(newKey, s)]
  | .obj fields => collectFields newKey fields
  | _ => []

/-- Walk of one object's own keys, in order. -/
def collectFields (currentPrefix : String) : JFields → List (String × String)
  | .nil => []
  | .cons k v tl =>
    collectValue (joinKey currentPrefix (escapeKey k)) v ++ collectFields currentPrefix tl

end

mutual

def weightV : JValue → Nat
  | .obj fields => 1 + weightF fields
  | _ => 1

def weightF : JFields → Nat
  | .nil => 0
  | .cons _ v tl => weightV v + weightF tl

end

theorem weightV_pos (v : JValue) : 1 ≤ weightV v := by
  cases v <;> simp [weightV]

/-- Weight of the explicit work stack, decreasing along
`collectAllStringsFromJson`'s loop. -/
def stackWeight : List (String × JFields) → Nat
  | [] => 0
  | (_, f) :: st => (2 * weightF f + 1) + stackWeight st

/-- The explicit-stack loop of `collectAllStringsFromJson`: the top stack
frame holds the object being walked (its not-yet-processed fields) and the
accumulated prefix; string leaves are pushed to the output, plain objects
push a new frame, everything else is skipped. -/
def collectStack : List (String × JFields) → List (String × String)
  | [] => []
  | (_, .nil) :: stack => collectStack stack
  | (currentPrefix, .cons k v tl) :: stack =>
    match v with
    | .str s =>
      (joinKey currentPrefix (escapeKey k), s) :: collectStack ((currentPrefix, tl) :: stack)
    | .obj fields =>
      collectStack ((joinKey currentPrefix (escapeKey k), fields) :: (currentPrefix, tl) :: stack)
    | _ =>
      collectStack ((currentPrefix, tl) :: stack)
termination_by st => stackWeight st
decreasing_by
  all_goals simp [stackWeight, weightF, weightV]
  all_goals try omega
  all_goals rename_i x
  all_goals have h9 := weightV_pos x
  all_goals omega

/-- `collectAllStringsFromJson` (entry point, empty prefix): the parallel
`keys`/`values` arrays collected by the stack loop. -/
def collectAllStringsFromJson (json : JFields) : CollectedStrings :=
  ⟨(collectStack [("", json)]).map Prod.fst, (collectStack [("", json)]).map Prod.snd⟩

theorem collectStack_eq (st : List (String × JFields)) :
    collectStack st = (st.map (fun pf => collectFields pf.1 pf.2)).flatten := by
  induction st using collectStack.induct with
  | case1 => simp [collectStack]
  | case2 pre stack ih => rw [collectStack]; simp [collectFields, ih]
  | case3 pre k tl stack s ih => rw [collectStack]; simp [collectFields, collectValue, ih]
  | case4 pre k tl stack fields ih => rw [collectStack]; simp [collectFields, collectValue, ih]
  | case5 pre k tl stack v h1 h2 ih =>
    rw [collectStack]
    · simp [collectFields, ih]
      cases tl with
      | str s => exact (h1 s rfl).elim
      | obj f => exact (h2 f rfl).elim
      | num n => simp [collectValue]
      | jbool b => simp [collectValue]
      | null => simp [collectValue]
      | arr l => simp [collectValue]
    · exact h1
    · exact h2

/-- The two `keys`/`values` arrays in terms of the recursive walk. -/
theorem collectAllStringsFromJson_eq (json : JFields) :
    collectAllStringsFromJson json =
      ⟨(collectFields "" json).map Prod.fst, (collectFields "" json).map Prod.snd⟩ := by
  rw [collectAllStringsFromJson, collectStack_eq]
  simp

/-! ### Rebuilding (`buildOutputJson`) -/

/-- JavaScript property read `currentLevel[p]` on our object model. -/
def getKey : JFields → String → Option JValue
  | .nil, _ => none
  | .cons k v tl, p => if k = p then some v else getKey tl p

/-- JavaScript property write `currentLevel[p] = v`: overwrite in place when
the key exists (its position is kept), otherwise append the new key. -/
def setKey : JFields → String → JValue → JFields
  | .nil, p, v => .cons p v .nil
  | .cons k w tl, p, v => if k = p then .cons k v tl else .cons k w (setKey tl p v)

/-- JavaScript falsiness of the values our model can store
(`!currentLevel[p]` for a present property). -/
def jsFalsy : JValue → Bool
  | .str s => s = ""
  | .num n => n = 0
  | .jbool b => !b
  | .null => true
  | .arr _ => false
  | .obj _ => false

/-- The inner `for (j...)` walk of `buildOutputJson` for one key: descend
through the split path, creating `{}` levels where the property is missing or
falsy, and assign `removeKeepTagsFromString value` at the last part.  A
truthy non-object met at an intermediate level makes the JavaScript walk
write a property on a primitive (a runtime error / silent no-op); we model
that unreachable corner as leaving the object unchanged. -/
def assignPath (fields : JFields) (parts : List (List Char)) (value : String) : JFields :=
  match parts with
  | [] => fields
  | [part] =>
    setKey fields ⟨decodeSegAux part⟩ (.str (removeKeepTagsFromString value))
  | part :: part2 :: rest =>
    match getKey fields ⟨decodeSegAux part⟩ with
    | none =>
      setKey fields ⟨decodeSegAux part⟩ (.obj (assignPath .nil (part2 :: rest) value))
    | some w =>
      if jsFalsy w then
        setKey fields ⟨decodeSegAux part⟩ (.obj (assignPath .nil (part2 :: rest) value))
      else match w with
        | .obj inner =>
          setKey fields ⟨decodeSegAux part⟩ (.obj (assignPath inner (part2 :: rest) value))
        | _ => fields

/-- The outer `for (i...)` loop of `buildOutputJson` over the key/value
pairs, mutating `result`. -/
def buildOutputJsonGo (result : JFields) : List (String × String) → JFields
  | [] => result
  | (key, value) :: rest => buildOutputJsonGo (assignPath result (dotSplit key) value) rest

/-- `buildOutputJson(translatedTexts, jsonKeys)`; the source walks the index
range of `jsonKeys` and reads `translatedTexts[i]`, which is only meaningful
when the arrays have equal length (as the flattener guarantees), so the pair
list is their zip. -/
def buildOutputJson (translatedTexts jsonKeys : List String) : JFields :=
  buildOutputJsonGo .nil (jsonKeys.zip translatedTexts)

/-! ### Claim C8: flattening skips non-string leaves -/

/-- Values `collectAllStringsFromJson` skips entirely: numbers, booleans,
null and arrays (`undefined` cannot be an own-property value of a parsed
JSON object). -/
def isSkippedValue : JValue → Bool
  | .num _ => true
  | .jbool _ => true
  | .null => true
  | .arr _ => true
  | _ => false

/-- The example object of C8: `{a: 1, b: true, c: null, d: [1,2], e: "x"}`. -/
def c8doc : JFields :=
  .cons "a" (.num 1) (.cons "b" (.jbool true) (.cons "c" .null
    (.cons "d" (.arr (.cons (.num 1) (.cons (.num 2) .nil)))
      (.cons "e" (.str "x") .nil))))

/-- C8: `collectAllStringsFromJson` always returns `keys` and `values` of
equal length; a field whose value is a number, boolean, null or array
contributes no entry at all; and the example object flattens to exactly
`{keys: ["e"], values: ["x"]}`. -/
theorem collect_skips_non_strings :
    (∀ json : JFields,
      (collectAllStringsFromJson json).keys.length =
        (collectAllStringsFromJson json).values.length) ∧
    collectAllStringsFromJson c8doc = ⟨["e"], ["x"]⟩ ∧
    (∀ (currentPrefix k : String) (v : JValue) (tl : JFields), isSkippedValue v = true →
      collectFields currentPrefix (.cons k v tl) = collectFields currentPrefix tl) := by
  refine ⟨?_, ?_, ?_⟩
  · intro json
    rw [collectAllStringsFromJson]
    simp
  · rw [collectAllStringsFromJson_eq]
    decide
  · intro currentPrefix k v tl hsk
    cases v with
    | str s => simp [isSkippedValue] at hsk
    | obj f => simp [isSkippedValue] at hsk
    | num n => simp [collectFields, collectValue]
    | jbool b => simp [collectFields, collectValue]
    | null => simp [collectFields, collectValue]
    | arr l => simp [collectFields, collectValue]

/-- Concrete instance of `collect_skips_non_strings`: equal lengths on the
example object, and a number field contributes nothing. -/
theorem collect_skips_non_strings_witness :
    (collectAllStringsFromJson c8doc).keys.length =
      (collectAllStringsFromJson c8doc).values.length ∧
    collectFields "" (.cons "n" (.num 7) .nil) = collectFields "" .nil :=
  ⟨collect_skips_non_strings.1 c8doc,
   collect_skips_non_strings.2.2 "" "n" (.num 7) .nil (by decide)⟩

/-! ### Codec lemmas: escaping, splitting and decoding of dot paths -/

theorem removeKeepTags_no_tag (s : String) (h : jsIncludes s "<keep>" = false) :
    removeKeepTagsFromString s = s := by
  rw [removeKeepTagsFromString, h]
  rfl

theorem escapeKeyAux_eq_nil_iff (kc : List Char) : escapeKeyAux kc = [] ↔ kc = [] := by
  cases kc with
  | nil => simp [escapeKeyAux]
  | cons c cs =>
    rw [escapeKeyAux]
    by_cases h : c = '.' <;> simp [h]

theorem decode_escape (kc : List Char) (hb : '\\' ∉ kc) :
    decodeSegAux (escapeKeyAux kc) = kc := by
  induction kc with
  | nil => rfl
  | cons c cs ih =>
    have hbc : c ≠ '\\' := fun h => hb (h ▸ List.mem_cons_self c cs)
    have hbcs : '\\' ∉ cs := fun h => hb (List.mem_cons_of_mem c h)
    by_cases hdot : c = '.'
    · subst hdot
      rw [escapeKeyAux, if_pos rfl, decodeSegAux, if_pos (by exact ⟨rfl, by decide⟩)]
      rw [ih hbcs]
    · rw [escapeKeyAux, if_neg hdot]
      cases hcs : escapeKeyAux cs with
      | nil =>
        have : cs = [] := (escapeKeyAux_eq_nil_iff cs).1 hcs
        subst this
        rfl
      | cons d ds =>
        rw [decodeSegAux, if_neg (by intro hcon; exact hbc hcon.1), ← hcs, ih hbcs]

theorem splitAux_congr : ∀ (l : List Char) (prev prev' : Option Char) (cur : List Char),
    prev ≠ some '\\' → prev' ≠ some '\\' →
    splitOnDotsAux prev cur l = splitOnDotsAux prev' cur l := by
  intro l
  induction l with
  | nil => intros; rfl
  | cons c cs ih =>
    intro prev prev' cur h1 h2
    rw [splitOnDotsAux, splitOnDotsAux]
    by_cases hc : c = '.'
    · rw [if_pos ⟨hc, h1⟩, if_pos ⟨hc, h2⟩]
    · rw [if_neg (by intro hcon; exact hc hcon.1), if_neg (by intro hcon; exact hc hcon.1)]

theorem splitAux_ne_nil : ∀ (l : List Char) (prev : Option Char) (cur : List Char),
    splitOnDotsAux prev cur l ≠ [] := by
  intro l
  induction l with
  | nil => intro prev cur; simp [splitOnDotsAux]
  | cons c cs ih =>
    intro prev cur
    rw [splitOnDotsAux]
    by_cases hc : c = '.' ∧ prev ≠ some '\\'
    · rw [if_pos hc]; simp
    · rw [if_neg hc]; exact ih _ _

theorem splitAux_escape (kc : List Char) (hb : '\\' ∉ kc) :
    ∀ (prev : Option Char) (cur : List Char), prev ≠ some '\\' →
      splitOnDotsAux prev cur (escapeKeyAux kc) = [cur.reverse ++ escapeKeyAux kc] := by
  induction kc with
  | nil => intro prev cur h; simp [escapeKeyAux, splitOnDotsAux]
  | cons c cs ih =>
    intro prev cur h
    have hbc : c ≠ '\\' := fun hcc => hb (hcc ▸ List.mem_cons_self c cs)
    have hbcs : '\\' ∉ cs := fun hcc => hb (List.mem_cons_of_mem c hcc)
    by_cases hdot : c = '.'
    · subst hdot
      rw [escapeKeyAux, if_pos rfl]
      rw [splitOnDotsAux, if_neg (by intro hcon; exact absurd hcon.1 (by decide))]
      rw [splitOnDotsAux, if_neg (by intro hcon; exact hcon.2 rfl)]
      rw [ih hbcs (some '.') _ (by simp)]
      simp
    · rw [escapeKeyAux, if_neg hdot]
      rw [splitOnDotsAux, if_neg (by intro hcon; exact hdot hcon.1)]
      rw [ih hbcs (some c) (c :: cur) (by intro hcon; exact hbc (Option.some.inj hcon))]
      simp

theorem splitAux_escape_dot (kc : List Char) (hb : '\\' ∉ kc) :
    ∀ (prev : Option Char) (cur rest : List Char), prev ≠ some '\\' →
      splitOnDotsAux prev cur (escapeKeyAux kc ++ '.' :: rest) =
        (cur.reverse ++ escapeKeyAux kc) :: splitOnDotsAux (some '.') [] rest := by
  induction kc with
  | nil =>
    intro prev cur rest h
    rw [show escapeKeyAux [] = [] from rfl]
    simp only [List.nil_append]
    rw [splitOnDotsAux, if_pos ⟨rfl, h⟩]
    simp
  | cons c cs ih =>
    intro prev cur rest h
    have hbc : c ≠ '\\' := fun hcc => hb (hcc ▸ List.mem_cons_self c cs)
    have hbcs : '\\' ∉ cs := fun hcc => hb (List.mem_cons_of_mem c hcc)
    by_cases hdot : c = '.'
    · subst hdot
      rw [escapeKeyAux, if_pos rfl]
      simp only [List.cons_append]
      rw [splitOnDotsAux, if_neg (by intro hcon; exact absurd hcon.1 (by decide))]
      rw [splitOnDotsAux, if_neg (by intro hcon; exact hcon.2 rfl)]
      rw [ih hbcs (some '.') _ rest (by simp)]
      simp
    · rw [escapeKeyAux, if_neg hdot]
      simp only [List.cons_append]
      rw [splitOnDotsAux, if_neg (by intro hcon; exact hdot hcon.1)]
      rw [ih hbcs (some c) (c :: cur) rest (by intro hcon; exact hbc (Option.some.inj hcon))]
      simp

theorem dotSplit_single (k : String) (hb : '\\' ∉ k.data) :
    dotSplit (escapeKey k) = [escapeKeyAux k.data] := by
  rw [dotSplit, escapeKey]
  simpa using splitAux_escape k.data hb none [] (by simp)

theorem dotSplit_cons (k p : String) (hb : '\\' ∉ k.data) :
    dotSplit (escapeKey k ++ "." ++ p) = escapeKeyAux k.data :: dotSplit p := by
  rw [dotSplit]
  have hdata : (escapeKey k ++ "." ++ p).data = escapeKeyAux k.data ++ '.' :: p.data := by
    rw [String.data_append, String.data_append]
    show (escapeKeyAux k.data ++ ['.']) ++ p.data = escapeKeyAux k.data ++ '.' :: p.data
    simp
  rw [hdata, splitAux_escape_dot k.data hb none [] p.data (by simp)]
  rw [splitAux_congr p.data (some '.') none [] (by simp) (by simp)]
  simp [dotSplit]

theorem dotSplit_ne_nil (key : String) : dotSplit key ≠ [] := splitAux_ne_nil key.data none []

/-! ### Well-formedness predicates on modelled JSON documents -/

/-- Keys of an object, in order. -/
def keysOf : JFields → List String
  | .nil => []
  | .cons k _ tl => k :: keysOf tl

/-- Concatenation of two field lists (used only in specifications/proofs). -/
def JFields.append : JFields → JFields → JFields
  | .nil, g => g
  | .cons k v tl, g => .cons k v (tl.append g)

instance : Append JFields := ⟨JFields.append⟩

mutual

/-- Every leaf is a string: only strings and (necessarily non-empty) plain
objects occur — an empty object is itself a non-string leaf. -/
def strLeavesV : JValue → Bool
  | .str _ => true
  | .obj .nil => false
  | .obj fields => strLeavesF fields
  | _ => false

def strLeavesF : JFields → Bool
  | .nil => true
  | .cons _ v tl => strLeavesV v && strLeavesF tl

end

mutual

/-- Every object (recursively) has pairwise distinct keys, as a JavaScript
object always does. -/
def nodupKeysV : JValue → Bool
  | .obj fields => nodupKeysF fields
  | _ => true

def nodupKeysF : JFields → Bool
  | .nil => true
  | .cons k v tl => !(keysOf tl).contains k && nodupKeysV v && nodupKeysF tl

end

mutual

/-- No key (recursively) contains a backslash character. -/
def noBackslashV : JValue → Bool
  | .obj fields => noBackslashF fields
  | _ => true

def noBackslashF : JFields → Bool
  | .nil => true
  | .cons k v tl => !k.data.contains '\\' && noBackslashV v && noBackslashF tl

end

mutual

/-- No key (recursively) is the empty string. -/
def noEmptyKeyV : JValue → Bool
  | .obj fields => noEmptyKeyF fields
  | _ => true

def noEmptyKeyF : JFields → Bool
  | .nil => true
  | .cons k v tl => !(k == "") && noEmptyKeyV v && noEmptyKeyF tl

end

mutual

/-- No string value (recursively) contains the `<keep>` marker token. -/
def noKeepV : JValue → Bool
  | .str s => !(jsIncludes s "<keep>")
  | .obj fields => noKeepF fields
  | _ => true

def noKeepF : JFields → Bool
  | .nil => true
  | .cons _ v tl => noKeepV v && noKeepF tl

end

/-! ### A nested induction principle for field lists -/

theorem JFields.nestedInduction {motiveF : JFields → Prop}
    (hnil : motiveF .nil)
    (hconsObj : ∀ (k : String) (g tl : JFields),
      motiveF g → motiveF tl → motiveF (.cons k (.obj g) tl))
    (hconsOther : ∀ (k : String) (v : JValue) (tl : JFields),
      (∀ g, v ≠ .obj g) → motiveF tl → motiveF (.cons k v tl)) :
    ∀ f, motiveF f := by
  have main : ∀ (n : Nat) (f : JFields), weightF f ≤ n → motiveF f := by
    intro n
    induction n using Nat.strong_induction_on with
    | _ n ih =>
      intro f hw
      cases f with
      | nil => exact hnil
      | cons k v tl =>
        have hwv := weightV_pos v
        have hcons : weightF (.cons k v tl) = weightV v + weightF tl := rfl
        cases v with
        | obj g =>
          have hg : weightV (JValue.obj g) = 1 + weightF g := rfl
          have hn1 : 1 ≤ n := by omega
          apply hconsObj
          · exact ih (n - 1) (by omega) g (by omega)
          · exact ih (n - 1) (by omega) tl (by omega)
        | str s =>
          exact hconsOther k (.str s) tl (by intro g h; cases h)
            (ih (n - 1) (by simp [weightV] at hcons; omega) tl
              (by simp [weightV] at hcons; omega))
        | num m =>
          exact hconsOther k (.num m) tl (by intro g h; cases h)
            (ih (n - 1) (by simp [weightV] at hcons; omega) tl
              (by simp [weightV] at hcons; omega))
        | jbool b =>
          exact hconsOther k (.jbool b) tl (by intro g h; cases h)
            (ih (n - 1) (by simp [weightV] at hcons; omega) tl
              (by simp [weightV] at hcons; omega))
        | null =>
          exact hconsOther k .null tl (by intro g h; cases h)
            (ih (n - 1) (by simp [weightV] at hcons; omega) tl
              (by simp [weightV] at hcons; omega))
        | arr l =>
          exact hconsOther k (.arr l) tl (by intro g h; cases h)
            (ih (n - 1) (by simp [weightV] at hcons; omega) tl
              (by simp [weightV] at hcons; omega))
  exact fun f => main (weightF f) f le_rfl

/-! ### Structure of the flattener's output -/

theorem noEmptyKeyF_cons_iff (k : String) (v : JValue) (tl : JFields) :
    noEmptyKeyF (.cons k v tl) = true ↔
      k ≠ "" ∧ noEmptyKeyV v = true ∧ noEmptyKeyF tl = true := by
  simp [noEmptyKeyF, and_assoc]

theorem noBackslashF_cons_iff (k : String) (v : JValue) (tl : JFields) :
    noBackslashF (.cons k v tl) = true ↔
      '\\' ∉ k.data ∧ noBackslashV v = true ∧ noBackslashF tl = true := by
  simp [noBackslashF, and_assoc]

theorem strLeavesF_cons_iff (k : String) (v : JValue) (tl : JFields) :
    strLeavesF (.cons k v tl) = true ↔ strLeavesV v = true ∧ strLeavesF tl = true := by
  simp [strLeavesF]

theorem nodupKeysF_cons_iff (k : String) (v : JValue) (tl : JFields) :
    nodupKeysF (.cons k v tl) = true ↔
      k ∉ keysOf tl ∧ nodupKeysV v = true ∧ nodupKeysF tl = true := by
  simp [nodupKeysF, and_assoc]

theorem noKeepF_cons_iff (k : String) (v : JValue) (tl : JFields) :
    noKeepF (.cons k v tl) = true ↔ noKeepV v = true ∧ noKeepF tl = true := by
  simp [noKeepF]

theorem escapeKey_ne_empty (k : String) (h : k ≠ "") : escapeKey k ≠ "" := by
  intro hcon
  apply h
  have hdata : escapeKeyAux k.data = [] := congrArg String.data hcon
  exact String.ext ((escapeKeyAux_eq_nil_iff k.data).1 hdata)

theorem joinStr_ne_empty (pre s : String) : pre ++ "." ++ s ≠ "" := by
  intro hcon
  have hdata := congrArg String.data hcon
  rw [String.data_append, String.data_append] at hdata
  simp at hdata

theorem collectFields_rebase : ∀ (f : JFields), noEmptyKeyF f = true →
    ∀ (pre : String), pre ≠ "" →
      collectFields pre f = (collectFields "" f).map (fun e => (pre ++ "." ++ e.1, e.2)) := by
  intro f
  induction f using JFields.nestedInduction with
  | hnil => intro _ pre _; simp [collectFields]
  | hconsObj k g tl ihg ihtl =>
    intro hne pre hpre
    obtain ⟨hk, hng, hntl⟩ := (noEmptyKeyF_cons_iff k _ tl).1 hne
    have hng' : noEmptyKeyF g = true := hng
    have hkey : escapeKey k ≠ "" := escapeKey_ne_empty k hk
    have e1 : joinKey pre (escapeKey k) = pre ++ "." ++ escapeKey k := by
      rw [joinKey, if_neg hpre]
    have e2 : joinKey "" (escapeKey k) = escapeKey k := by rw [joinKey, if_pos rfl]
    simp only [collectFields, collectValue, e1, e2, List.map_append]
    congr 1
    · rw [ihg hng' (pre ++ "." ++ escapeKey k) (joinStr_ne_empty pre (escapeKey k)),
        ihg hng' (escapeKey k) hkey]
      rw [List.map_map]
      apply List.map_congr_left
      intro e _
      show (pre ++ "." ++ escapeKey k ++ "." ++ e.1, e.2) =
        (pre ++ "." ++ (escapeKey k ++ "." ++ e.1), e.2)
      simp [String.append_assoc]
    · exact ihtl hntl pre hpre
  | hconsOther k v tl hno ihtl =>
    intro hne pre hpre
    obtain ⟨hk, _, hntl⟩ := (noEmptyKeyF_cons_iff k v tl).1 hne
    have e1 : joinKey pre (escapeKey k) = pre ++ "." ++ escapeKey k := by
      rw [joinKey, if_neg hpre]
    have e2 : joinKey "" (escapeKey k) = escapeKey k := by rw [joinKey, if_pos rfl]
    cases v with
    | str s => simp only [collectFields, collectValue, e1, e2, List.map_append,
        List.map_cons, List.map_nil, ihtl hntl pre hpre]
    | obj g => exact absurd rfl (hno g)
    | num m => simp only [collectFields, collectValue, List.nil_append, ihtl hntl pre hpre]
    | jbool b => simp only [collectFields, collectValue, List.nil_append, ihtl hntl pre hpre]
    | null => simp only [collectFields, collectValue, List.nil_append, ihtl hntl pre hpre]
    | arr l => simp only [collectFields, collectValue, List.nil_append, ihtl hntl pre hpre]

/-! ### Association-list lemmas for the rebuild side -/

theorem JFields.plainInduction {motive : JFields → Prop}
    (hnil : motive .nil)
    (hcons : ∀ (k : String) (v : JValue) (tl : JFields), motive tl → motive (.cons k v tl)) :
    ∀ f, motive f :=
  JFields.nestedInduction hnil (fun k g tl _ ih => hcons k (.obj g) tl ih)
    (fun k v tl _ ih => hcons k v tl ih)

theorem JFields.nil_append (f : JFields) : (.nil : JFields) ++ f = f := rfl

theorem JFields.cons_append (k : String) (v : JValue) (tl g : JFields) :
    (JFields.cons k v tl) ++ g = .cons k v (tl ++ g) := rfl

theorem JFields.append_nil : ∀ f : JFields, f ++ .nil = f := by
  intro f
  induction f using JFields.plainInduction with
  | hnil => rfl
  | hcons k v tl ih => rw [JFields.cons_append, ih]

theorem JFields.append_assoc : ∀ a b c : JFields, a ++ b ++ c = a ++ (b ++ c) := by
  intro a b c
  induction a using JFields.plainInduction with
  | hnil => rfl
  | hcons k v tl ih => rw [JFields.cons_append, JFields.cons_append, ih, JFields.cons_append]

theorem keysOf_append : ∀ a b : JFields, keysOf (a ++ b) = keysOf a ++ keysOf b := by
  intro a b
  induction a using JFields.plainInduction with
  | hnil => rfl
  | hcons k v tl ih => rw [JFields.cons_append, keysOf, keysOf, ih, List.cons_append]

theorem getKey_append_not_mem : ∀ (done cur : JFields) (p : String), p ∉ keysOf done →
    getKey (done ++ cur) p = getKey cur p := by
  intro done
  induction done using JFields.plainInduction with
  | hnil => intro cur p h; rfl
  | hcons k v tl ih =>
    intro cur p h
    rw [JFields.cons_append, getKey]
    rw [keysOf] at h
    simp only [List.mem_cons] at h
    rw [if_neg (fun hc => h (Or.inl hc.symm))]
    exact ih cur p (fun hc => h (Or.inr hc))

theorem setKey_append_not_mem : ∀ (done cur : JFields) (p : String) (v : JValue),
    p ∉ keysOf done → setKey (done ++ cur) p v = done ++ setKey cur p v := by
  intro done
  induction done using JFields.plainInduction with
  | hnil => intro cur p v h; rfl
  | hcons k w tl ih =>
    intro cur p v h
    rw [JFields.cons_append, setKey]
    rw [keysOf] at h
    simp only [List.mem_cons] at h
    rw [if_neg (fun hc => h (Or.inl hc.symm))]
    rw [ih cur p v (fun hc => h (Or.inr hc)), JFields.cons_append]

theorem getKey_eq_none_iff : ∀ (f : JFields) (p : String), getKey f p = none ↔ p ∉ keysOf f := by
  intro f
  induction f using JFields.plainInduction with
  | hnil => intro p; simp [getKey, keysOf]
  | hcons k v tl ih =>
    intro p
    rw [getKey, keysOf]
    by_cases h : k = p
    · subst h
      simp
    · rw [if_neg h]
      simp only [List.mem_cons, ih]
      constructor
      · intro hn hc
        rcases hc with hc | hc
        · exact h hc.symm
        · exact hn hc
      · intro hn
        exact fun hc => hn (Or.inr hc)

theorem getKey_setKey_self : ∀ (f : JFields) (p : String) (v : JValue),
    getKey (setKey f p v) p = some v := by
  intro f
  induction f using JFields.plainInduction with
  | hnil => intro p v; simp [setKey, getKey]
  | hcons k w tl ih =>
    intro p v
    rw [setKey]
    by_cases h : k = p
    · rw [if_pos h, getKey, if_pos h]
    · rw [if_neg h, getKey, if_neg h]
      exact ih p v

theorem setKey_setKey_self : ∀ (f : JFields) (p : String) (a b : JValue),
    setKey (setKey f p a) p b = setKey f p b := by
  intro f
  induction f using JFields.plainInduction with
  | hnil => intro p a b; simp [setKey]
  | hcons k w tl ih =>
    intro p a b
    rw [setKey]
    by_cases h : k = p
    · rw [if_pos h, setKey, if_pos h, setKey, if_pos h]
    · rw [if_neg h, setKey, if_neg h, setKey, if_neg h, ih]

theorem setKey_not_mem_append : ∀ (f : JFields) (p : String) (v : JValue), p ∉ keysOf f →
    setKey f p v = f ++ .cons p v .nil := by
  intro f
  induction f using JFields.plainInduction with
  | hnil => intro p v h; rfl
  | hcons k w tl ih =>
    intro p v h
    rw [keysOf] at h
    simp only [List.mem_cons] at h
    rw [setKey, if_neg (fun hc => h (Or.inl hc.symm)), JFields.cons_append,
      ih p v (fun hc => h (Or.inr hc))]

/-! ### Stepping lemmas for `assignPath` and the rebuild loop -/

theorem assignPath_descend (fields : JFields) (part part2 : List Char)
    (rest : List (List Char)) (value : String) (inner : JFields)
    (hget : getKey fields ⟨decodeSegAux part⟩ = some (.obj inner)) :
    assignPath fields (part :: part2 :: rest) value =
      setKey fields ⟨decodeSegAux part⟩ (.obj (assignPath inner (part2 :: rest) value)) := by
  rw [assignPath, hget]
  dsimp only
  rw [if_neg (by simp [jsFalsy])]

theorem assignPath_create (fields : JFields) (part part2 : List Char)
    (rest : List (List Char)) (value : String)
    (hget : getKey fields ⟨decodeSegAux part⟩ = none) :
    assignPath fields (part :: part2 :: rest) value =
      setKey fields ⟨decodeSegAux part⟩ (.obj (assignPath .nil (part2 :: rest) value)) := by
  rw [assignPath, hget]

theorem assignPath_single (fields : JFields) (part : List Char) (value : String) :
    assignPath fields [part] value =
      setKey fields ⟨decodeSegAux part⟩ (.str (removeKeepTagsFromString value)) := rfl

theorem assignPath_append (done cur : JFields) (part : List Char) (rests : List (List Char))
    (value : String) (hnm : (⟨decodeSegAux part⟩ : String) ∉ keysOf done) :
    assignPath (done ++ cur) (part :: rests) value =
      done ++ assignPath cur (part :: rests) value := by
  cases rests with
  | nil =>
    rw [assignPath_single, assignPath_single, setKey_append_not_mem done cur _ _ hnm]
  | cons part2 rest =>
    rw [assignPath, assignPath, getKey_append_not_mem done cur _ hnm]
    cases hget : getKey cur ⟨decodeSegAux part⟩ with
    | none =>
      dsimp only
      rw [setKey_append_not_mem done cur _ _ hnm]
    | some w =>
      dsimp only
      by_cases hf : jsFalsy w = true
      · rw [if_pos hf, if_pos hf, setKey_append_not_mem done cur _ _ hnm]
      · rw [if_neg hf, if_neg hf]
        cases w with
        | obj inner =>
          dsimp only
          rw [setKey_append_not_mem done cur _ _ hnm]
        | str s => rfl
        | num n => rfl
        | jbool b => rfl
        | null => rfl
        | arr l => rfl

theorem setKey_of_getKey_some : ∀ (f : JFields) (p : String) (v : JValue),
    getKey f p = some v → setKey f p v = f := by
  intro f
  induction f using JFields.plainInduction with
  | hnil => intro p v h; cases h
  | hcons k w tl ih =>
    intro p v h
    rw [getKey] at h
    rw [setKey]
    by_cases hk : k = p
    · rw [if_pos hk] at h
      rw [if_pos hk, Option.some_inj.1 h]
    · rw [if_neg hk] at h
      rw [if_neg hk, ih p v h]

theorem buildGo_append : ∀ (a b : List (String × String)) (f : JFields),
    buildOutputJsonGo f (a ++ b) = buildOutputJsonGo (buildOutputJsonGo f a) b := by
  intro a
  induction a with
  | nil => intro b f; rfl
  | cons e rest ih =>
    intro b f
    obtain ⟨ek, ev⟩ := e
    rw [List.cons_append, buildOutputJsonGo, buildOutputJsonGo, ih]

theorem buildGo_frame : ∀ (entries : List (String × String)) (done cur : JFields),
    (∀ e ∈ entries, (⟨decodeSegAux ((dotSplit e.1).headI)⟩ : String) ∉ keysOf done) →
    buildOutputJsonGo (done ++ cur) entries = done ++ buildOutputJsonGo cur entries := by
  intro entries
  induction entries with
  | nil => intro done cur _; rfl
  | cons e rest ih =>
    intro done cur h
    obtain ⟨ek, ev⟩ := e
    rw [buildOutputJsonGo, buildOutputJsonGo]
    cases hsp : dotSplit ek with
    | nil => exact absurd hsp (dotSplit_ne_nil ek)
    | cons part rests =>
      have hhead := h (ek, ev) (List.mem_cons_self _ _)
      rw [hsp] at hhead
      simp only [List.headI] at hhead
      rw [assignPath_append done cur part rests ev hhead]
      exact ih done (assignPath cur (part :: rests) ev)
        (fun e he => h e (List.mem_cons_of_mem _ he))

theorem buildGo_descend (k : String) (pf : String → String)
    (hdec : (⟨decodeSegAux (escapeKeyAux k.data)⟩ : String) = k)
    (hsplit : ∀ p, dotSplit (pf p) = escapeKeyAux k.data :: dotSplit p) :
    ∀ (entries : List (String × String)) (fields inner : JFields),
      getKey fields k = some (.obj inner) →
      buildOutputJsonGo fields (entries.map (fun e => (pf e.1, e.2))) =
        setKey fields k (.obj (buildOutputJsonGo inner entries)) := by
  intro entries
  induction entries with
  | nil =>
    intro fields inner hget
    exact (setKey_of_getKey_some fields k _ hget).symm
  | cons e rest ih =>
    intro fields inner hget
    obtain ⟨ek, ev⟩ := e
    simp only [List.map_cons]
    rw [buildOutputJsonGo, hsplit ek]
    cases hsp : dotSplit ek with
    | nil => exact absurd hsp (dotSplit_ne_nil ek)
    | cons q qs =>
      rw [assignPath_descend fields (escapeKeyAux k.data) q qs ev inner
        (by rw [hdec]; exact hget)]
      rw [hdec]
      rw [ih (setKey fields k (.obj (assignPath inner (q :: qs) ev)))
        (assignPath inner (q :: qs) ev) (getKey_setKey_self fields k _)]
      rw [setKey_setKey_self]
      rw [show buildOutputJsonGo inner ((ek, ev) :: rest) =
        buildOutputJsonGo (assignPath inner (dotSplit ek) ev) rest from rfl, hsp]

theorem buildGo_create (k : String) (pf : String → String)
    (hdec : (⟨decodeSegAux (escapeKeyAux k.data)⟩ : String) = k)
    (hsplit : ∀ p, dotSplit (pf p) = escapeKeyAux k.data :: dotSplit p)
    (entries : List (String × String)) (hne : entries ≠ []) (fields : JFields)
    (hget : getKey fields k = none) :
    buildOutputJsonGo fields (entries.map (fun e => (pf e.1, e.2))) =
      setKey fields k (.obj (buildOutputJsonGo .nil entries)) := by
  cases entries with
  | nil => exact absurd rfl hne
  | cons e rest =>
    obtain ⟨ek, ev⟩ := e
    simp only [List.map_cons]
    rw [buildOutputJsonGo, hsplit ek]
    cases hsp : dotSplit ek with
    | nil => exact absurd hsp (dotSplit_ne_nil ek)
    | cons q qs =>
      rw [assignPath_create fields (escapeKeyAux k.data) q qs ev
        (by rw [hdec]; exact hget)]
      rw [hdec]
      rw [buildGo_descend k pf hdec hsplit rest
        (setKey fields k (.obj (assignPath .nil (q :: qs) ev)))
        (assignPath .nil (q :: qs) ev) (getKey_setKey_self fields k _)]
      rw [setKey_setKey_self]
      rw [show buildOutputJsonGo .nil ((ek, ev) :: rest) =
        buildOutputJsonGo (assignPath .nil (dotSplit ek) ev) rest from rfl, hsp]

theorem strLeavesV_obj_iff (g : JFields) :
    strLeavesV (.obj g) = true ↔ g ≠ .nil ∧ strLeavesF g = true := by
  cases g with
  | nil => simp [strLeavesV]
  | cons k v tl =>
    rw [show strLeavesV (.obj (.cons k v tl)) = strLeavesF (.cons k v tl) from rfl]
    simp

theorem collectFields_ne_nil : ∀ (f : JFields), strLeavesF f = true → f ≠ .nil →
    ∀ pre, collectFields pre f ≠ [] := by
  intro f
  induction f using JFields.nestedInduction with
  | hnil => intro _ h; exact absurd rfl h
  | hconsObj k g tl ihg ihtl =>
    intro hs _ pre
    obtain ⟨hsv, hstl⟩ := (strLeavesF_cons_iff k _ tl).1 hs
    obtain ⟨hgne, hsg⟩ := (strLeavesV_obj_iff g).1 hsv
    rw [collectFields]
    intro hcon
    rcases List.append_eq_nil.1 hcon with ⟨hL, _⟩
    exact ihg hsg hgne (joinKey pre (escapeKey k)) hL
  | hconsOther k v tl hno ihtl =>
    intro hs _ pre
    obtain ⟨hsv, hstl⟩ := (strLeavesF_cons_iff k v tl).1 hs
    cases v with
    | str s => rw [collectFields]; simp [collectValue]
    | obj g => exact absurd rfl (hno g)
    | num n => simp [strLeavesV] at hsv
    | jbool b => simp [strLeavesV] at hsv
    | null => simp [strLeavesV] at hsv
    | arr l => simp [strLeavesV] at hsv

theorem buildGo_collect : ∀ (f : JFields),
    strLeavesF f = true → nodupKeysF f = true → noBackslashF f = true →
    noEmptyKeyF f = true → noKeepF f = true →
    ∀ done : JFields, (∀ k ∈ keysOf f, k ∉ keysOf done) →
      buildOutputJsonGo done (collectFields "" f) = done ++ f := by
  intro f
  induction f using JFields.nestedInduction with
  | hnil =>
    intro _ _ _ _ _ done _
    rw [collectFields]
    exact (JFields.append_nil done).symm
  | hconsObj k g tl ihg ihtl =>
    intro hs hd hb he hk done hdisj
    obtain ⟨hsv, hstl⟩ := (strLeavesF_cons_iff k _ tl).1 hs
    obtain ⟨hgne, hsg⟩ := (strLeavesV_obj_iff g).1 hsv
    obtain ⟨hdk, hdv, hdtl⟩ := (nodupKeysF_cons_iff k _ tl).1 hd
    obtain ⟨hbk, hbv, hbtl⟩ := (noBackslashF_cons_iff k _ tl).1 hb
    obtain ⟨hek, hev, hetl⟩ := (noEmptyKeyF_cons_iff k _ tl).1 he
    obtain ⟨hkv, hktl⟩ := (noKeepF_cons_iff k _ tl).1 hk
    have hdg : nodupKeysF g = true := hdv
    have hbg : noBackslashF g = true := hbv
    have heg : noEmptyKeyF g = true := hev
    have hkg : noKeepF g = true := hkv
    have hdec : (⟨decodeSegAux (escapeKeyAux k.data)⟩ : String) = k := by
      apply String.ext
      exact decode_escape k.data hbk
    have hsplit : ∀ p, dotSplit (escapeKey k ++ "." ++ p) =
        escapeKeyAux k.data :: dotSplit p := fun p => dotSplit_cons k p hbk
    have e2 : joinKey "" (escapeKey k) = escapeKey k := by rw [joinKey, if_pos rfl]
    rw [collectFields,
      show collectValue (joinKey "" (escapeKey k)) (JValue.obj g) =
        collectFields (joinKey "" (escapeKey k)) g from rfl, e2,
      collectFields_rebase g heg (escapeKey k) (escapeKey_ne_empty k hek)]
    rw [buildGo_append]
    have hkdone : k ∉ keysOf done := hdisj k (by rw [keysOf]; exact List.mem_cons_self _ _)
    rw [buildGo_create k (fun p => escapeKey k ++ "." ++ p) hdec hsplit
      (collectFields "" g) (collectFields_ne_nil g hsg hgne "") done
      ((getKey_eq_none_iff done k).2 hkdone)]
    rw [ihg hsg hdg hbg heg hkg .nil (by intro k' _; simp [keysOf]), JFields.nil_append]
    rw [setKey_not_mem_append done k _ hkdone]
    rw [ihtl hstl hdtl hbtl hetl hktl (done ++ .cons k (.obj g) .nil) ?disj]
    case disj =>
      intro k' hk'
      rw [keysOf_append]
      simp only [List.mem_append, keysOf, List.mem_cons, List.not_mem_nil]
      rintro (hcon | hcon | hcon)
      · exact hdisj k' (by rw [keysOf]; exact List.mem_cons_of_mem _ hk') hcon
      · exact hdk (hcon ▸ hk')
      · exact hcon
    rw [JFields.append_assoc, JFields.cons_append, JFields.nil_append]
  | hconsOther k v tl hno ihtl =>
    intro hs hd hb he hk done hdisj
    obtain ⟨hsv, hstl⟩ := (strLeavesF_cons_iff k v tl).1 hs
    cases v with
    | obj g => exact absurd rfl (hno g)
    | num n => simp [strLeavesV] at hsv
    | jbool b => simp [strLeavesV] at hsv
    | null => simp [strLeavesV] at hsv
    | arr l => simp [strLeavesV] at hsv
    | str s =>
      obtain ⟨hdk, _, hdtl⟩ := (nodupKeysF_cons_iff k _ tl).1 hd
      obtain ⟨hbk, _, hbtl⟩ := (noBackslashF_cons_iff k _ tl).1 hb
      obtain ⟨hek, _, hetl⟩ := (noEmptyKeyF_cons_iff k _ tl).1 he
      obtain ⟨hkv, hktl⟩ := (noKeepF_cons_iff k _ tl).1 hk
      have hdec : (⟨decodeSegAux (escapeKeyAux k.data)⟩ : String) = k := by
        apply String.ext
        exact decode_escape k.data hbk
      have hnokeep : jsIncludes s "<keep>" = false := by
        have : noKeepV (.str s) = true := hkv
        rw [noKeepV] at this
        simpa using this
      have e2 : joinKey "" (escapeKey k) = escapeKey k := by rw [joinKey, if_pos rfl]
      have hkdone : k ∉ keysOf done := hdisj k (by rw [keysOf]; exact List.mem_cons_self _ _)
      rw [collectFields,
        show collectValue (joinKey "" (escapeKey k)) (JValue.str s) =
          [(joinKey "" (escapeKey k), s)] from rfl, e2]
      rw [show ([(escapeKey k, s)] : List (String × String)) ++ collectFields "" tl =
        (escapeKey k, s) :: collectFields "" tl from rfl]
      rw [buildOutputJsonGo, dotSplit_single k hbk, assignPath_single, hdec,
        removeKeepTags_no_tag s hnokeep]
      rw [setKey_not_mem_append done k _ hkdone]
      rw [ihtl hstl hdtl hbtl hetl hktl (done ++ .cons k (.str s) .nil) ?disj2]
      case disj2 =>
        intro k' hk'
        rw [keysOf_append]
        simp only [List.mem_append, keysOf, List.mem_cons, List.not_mem_nil]
        rintro (hcon | hcon | hcon)
        · exact hdisj k' (by rw [keysOf]; exact List.mem_cons_of_mem _ hk') hcon
        · exact hdk (hcon ▸ hk')
        · exact hcon
      rw [JFields.append_assoc, JFields.cons_append, JFields.nil_append]

theorem zip_map_fst_snd : ∀ (l : List (String × String)),
    (l.map Prod.fst).zip (l.map Prod.snd) = l := by
  intro l
  induction l with
  | nil => rfl
  | cons e rest ih => simp [ih]

/-- C1 (amended): for every nested object whose leaves are all strings, whose
keys contain no backslash and are non-empty, and whose string values do not
contain the `<keep>` marker, rebuilding from the flattener's output
reproduces the original object exactly — including objects whose keys
contain literal dots, which flatten to escaped paths and rebuild to the
original single key. -/
theorem json_round_trip (fields : JFields)
    (h1 : strLeavesF fields = true) (h2 : nodupKeysF fields = true)
    (h3 : noBackslashF fields = true) (h4 : noEmptyKeyF fields = true)
    (h5 : noKeepF fields = true) :
    buildOutputJson (collectAllStringsFromJson fields).values
      (collectAllStringsFromJson fields).keys = fields := by
  rw [collectAllStringsFromJson_eq]
  show buildOutputJson ((collectFields "" fields).map Prod.snd)
    ((collectFields "" fields).map Prod.fst) = fields
  rw [buildOutputJson, zip_map_fst_snd]
  rw [buildGo_collect fields h1 h2 h3 h4 h5 .nil (by intro k _; simp [keysOf])]
  exact JFields.nil_append fields

/-- `{"a\b": "v"}` — a key containing a backslash. -/
def c1doc1 : JFields := .cons "a\\b" (.str "v") .nil

/-- `{"a": "<keep>x</keep>"}` — a value containing the marker token. -/
def c1doc2 : JFields := .cons "a" (.str "<keep>x</keep>") .nil

/-- `{"": {"a": "v"}}` — an empty root key with an object value. -/
def c1doc3 : JFields := .cons "" (.obj (.cons "a" (.str "v") .nil)) .nil

/-- C1 as stated is false on three inputs that are nested objects with only
string leaves: a backslash key (`{"a\b": "v"}` rebuilds to `{"a.": "v"}`
because unescaping collapses the pair `\b` into a single dot), a value
containing `<keep>`
(stripped by the rebuilder), and an empty root key with an object value
(whose children lose a path level). -/
theorem json_round_trip_counterexample :
    buildOutputJson (collectAllStringsFromJson c1doc1).values
      (collectAllStringsFromJson c1doc1).keys ≠ c1doc1 ∧
    buildOutputJson (collectAllStringsFromJson c1doc2).values
      (collectAllStringsFromJson c1doc2).keys ≠ c1doc2 ∧
    buildOutputJson (collectAllStringsFromJson c1doc3).values
      (collectAllStringsFromJson c1doc3).keys ≠ c1doc3 := by
  refine ⟨?_, ?_, ?_⟩ <;> (rw [collectAllStringsFromJson_eq]; decide)

/-- `{"user.name": "John", "user": {"age": "30"}}` — the dotted-key example
from the source's doc comment. -/
def c1docW : JFields :=
  .cons "user.name" (.str "John")
    (.cons "user" (.obj (.cons "age" (.str "30") .nil)) .nil)

/-- Concrete instance of `json_round_trip`, with a literal dot in a key. -/
theorem json_round_trip_witness :
    strLeavesF c1docW = true ∧ nodupKeysF c1docW = true ∧
    buildOutputJson (collectAllStringsFromJson c1docW).values
      (collectAllStringsFromJson c1docW).keys = c1docW :=
  ⟨by decide, by decide,
   json_round_trip c1docW (by decide) (by decide) (by decide) (by decide) (by decide)⟩

/-! ### Claim C9: the flattener's paths are pairwise distinct and
prefix-free -/

mutual

/-- Key sequences (root-to-leaf) of the string leaves below one field. -/
def leafSeqsV (k : String) : JValue → List (List String)
  | .str _ => [[k]]
  | .obj f => (leafSeqsF f).map (fun seq => k :: seq)
  | _ => []

/-- Key sequences (root-to-leaf) of all string leaves of an object. -/
def leafSeqsF : JFields → List (List String)
  | .nil => []
  | .cons k v tl => leafSeqsV k v ++ leafSeqsF tl

end

/-- Decoded segment sequence of an encoded path. -/
def pathSeq (p : String) : List String :=
  (dotSplit p).map (fun part => (⟨decodeSegAux part⟩ : String))

theorem collect_pathSeqs : ∀ (f : JFields), noBackslashF f = true → noEmptyKeyF f = true →
    (collectFields "" f).map (fun e => pathSeq e.1) = leafSeqsF f := by
  intro f
  induction f using JFields.nestedInduction with
  | hnil => intro _ _; simp [collectFields, leafSeqsF]
  | hconsObj k g tl ihg ihtl =>
    intro hb he
    obtain ⟨hbk, hbv, hbtl⟩ := (noBackslashF_cons_iff k _ tl).1 hb
    obtain ⟨hek, hev, hetl⟩ := (noEmptyKeyF_cons_iff k _ tl).1 he
    have hbg : noBackslashF g = true := hbv
    have heg : noEmptyKeyF g = true := hev
    have hdec : (⟨decodeSegAux (escapeKeyAux k.data)⟩ : String) = k := by
      apply String.ext
      exact decode_escape k.data hbk
    have e2 : joinKey "" (escapeKey k) = escapeKey k := by rw [joinKey, if_pos rfl]
    rw [collectFields,
      show collectValue (joinKey "" (escapeKey k)) (JValue.obj g) =
        collectFields (joinKey "" (escapeKey k)) g from rfl, e2,
      collectFields_rebase g heg (escapeKey k) (escapeKey_ne_empty k hek)]
    rw [List.map_append]
    rw [show leafSeqsF (.cons k (.obj g) tl) = leafSeqsV k (.obj g) ++ leafSeqsF tl from rfl]
    congr 1
    · rw [show leafSeqsV k (.obj g) = (leafSeqsF g).map (fun seq => k :: seq) from rfl]
      rw [← ihg hbg heg, List.map_map, List.map_map]
      apply List.map_congr_left
      intro e _
      show pathSeq (escapeKey k ++ "." ++ e.1) = k :: pathSeq e.1
      rw [pathSeq, dotSplit_cons k e.1 hbk, List.map_cons, hdec]
      rfl
    · exact ihtl hbtl hetl
  | hconsOther k v tl hno ihtl =>
    intro hb he
    obtain ⟨hbk, _, hbtl⟩ := (noBackslashF_cons_iff k v tl).1 hb
    obtain ⟨hek, _, hetl⟩ := (noEmptyKeyF_cons_iff k v tl).1 he
    have hdec : (⟨decodeSegAux (escapeKeyAux k.data)⟩ : String) = k := by
      apply String.ext
      exact decode_escape k.data hbk
    have e2 : joinKey "" (escapeKey k) = escapeKey k := by rw [joinKey, if_pos rfl]
    cases v with
    | obj g => exact absurd rfl (hno g)
    | str s =>
      rw [collectFields,
        show collectValue (joinKey "" (escapeKey k)) (JValue.str s) =
          [(joinKey "" (escapeKey k), s)] from rfl, e2]
      rw [show leafSeqsF (.cons k (.str s) tl) = leafSeqsV k (.str s) ++ leafSeqsF tl from rfl]
      rw [List.map_append, ihtl hbtl hetl]
      congr 1
      rw [show leafSeqsV k (.str s) = [[k]] from rfl]
      simp only [List.map_cons, List.map_nil]
      rw [pathSeq, dotSplit_single k hbk, List.map_cons, hdec]
      rfl
    | num n => simpa [collectFields, collectValue, leafSeqsF, leafSeqsV] using ihtl hbtl hetl
    | jbool b => simpa [collectFields, collectValue, leafSeqsF, leafSeqsV] using ihtl hbtl hetl
    | null => simpa [collectFields, collectValue, leafSeqsF, leafSeqsV] using ihtl hbtl hetl
    | arr l => simpa [collectFields, collectValue, leafSeqsF, leafSeqsV] using ihtl hbtl hetl

theorem leafSeqsV_head (k : String) (v : JValue) (seq : List String)
    (h : seq ∈ leafSeqsV k v) : ∃ t, seq = k :: t := by
  cases v with
  | str s =>
    rw [show leafSeqsV k (.str s) = [[k]] from rfl] at h
    simp at h
    exact ⟨[], by simp [h]⟩
  | obj f =>
    rw [show leafSeqsV k (.obj f) = (leafSeqsF f).map (fun seq => k :: seq) from rfl] at h
    obtain ⟨t, _, rfl⟩ := List.mem_map.1 h
    exact ⟨t, rfl⟩
  | num n => simp [leafSeqsV] at h
  | jbool b => simp [leafSeqsV] at h
  | null => simp [leafSeqsV] at h
  | arr l => simp [leafSeqsV] at h

theorem leafSeqsF_head : ∀ (f : JFields) (seq : List String), seq ∈ leafSeqsF f →
    ∃ k t, k ∈ keysOf f ∧ seq = k :: t := by
  intro f
  induction f using JFields.plainInduction with
  | hnil => intro seq h; simp [leafSeqsF] at h
  | hcons k v tl ih =>
    intro seq h
    rw [show leafSeqsF (.cons k v tl) = leafSeqsV k v ++ leafSeqsF tl from rfl] at h
    rcases List.mem_append.1 h with h | h
    · obtain ⟨t, rfl⟩ := leafSeqsV_head k v seq h
      exact ⟨k, t, by rw [keysOf]; exact List.mem_cons_self _ _, rfl⟩
    · obtain ⟨k', t, hk', rfl⟩ := ih seq h
      exact ⟨k', t, by rw [keysOf]; exact List.mem_cons_of_mem _ hk', rfl⟩

theorem leafSeqs_pairwise : ∀ (f : JFields), nodupKeysF f = true →
    List.Pairwise (fun a b => ¬ (a <+: b) ∧ ¬ (b <+: a)) (leafSeqsF f) := by
  intro f
  induction f using JFields.nestedInduction with
  | hnil => intro _; simp [leafSeqsF]
  | hconsObj k g tl ihg ihtl =>
    intro hd
    obtain ⟨hdk, hdv, hdtl⟩ := (nodupKeysF_cons_iff k _ tl).1 hd
    have hdg : nodupKeysF g = true := hdv
    rw [show leafSeqsF (.cons k (.obj g) tl) = leafSeqsV k (.obj g) ++ leafSeqsF tl from rfl]
    rw [List.pairwise_append]
    refine ⟨?_, ihtl hdtl, ?_⟩
    · rw [show leafSeqsV k (.obj g) = (leafSeqsF g).map (fun seq => k :: seq) from rfl]
      rw [List.pairwise_map]
      refine (ihg hdg).imp ?_
      intro a b hab
      exact ⟨fun hcon => hab.1 (List.cons_prefix_cons.1 hcon).2,
        fun hcon => hab.2 (List.cons_prefix_cons.1 hcon).2⟩
    · intro a ha b hb
      obtain ⟨t, rfl⟩ := leafSeqsV_head k _ a ha
      obtain ⟨k', t', hk', rfl⟩ := leafSeqsF_head tl b hb
      have hne : k ≠ k' := fun h => hdk (h ▸ hk')
      exact ⟨fun hcon => hne (List.cons_prefix_cons.1 hcon).1,
        fun hcon => hne ((List.cons_prefix_cons.1 hcon).1).symm⟩
  | hconsOther k v tl hno ihtl =>
    intro hd
    obtain ⟨hdk, _, hdtl⟩ := (nodupKeysF_cons_iff k v tl).1 hd
    rw [show leafSeqsF (.cons k v tl) = leafSeqsV k v ++ leafSeqsF tl from rfl]
    rw [List.pairwise_append]
    refine ⟨?_, ihtl hdtl, ?_⟩
    · cases v with
      | str s => simp [leafSeqsV]
      | obj g => exact absurd rfl (hno g)
      | num n => simp [leafSeqsV]
      | jbool b => simp [leafSeqsV]
      | null => simp [leafSeqsV]
      | arr l => simp [leafSeqsV]
    · intro a ha b hb
      obtain ⟨t, rfl⟩ := leafSeqsV_head k v a ha
      obtain ⟨k', t', hk', rfl⟩ := leafSeqsF_head tl b hb
      have hne : k ≠ k' := fun h => hdk (h ▸ hk')
      exact ⟨fun hcon => hne (List.cons_prefix_cons.1 hcon).1,
        fun hcon => hne ((List.cons_prefix_cons.1 hcon).1).symm⟩

/-- C9 (amended): for every object whose keys contain no backslash and are
non-empty (a JavaScript object's keys being pairwise distinct, recursively),
the encoded paths returned by `collectAllStringsFromJson` are pairwise
distinct and none splits into a dot-path that is a proper prefix of
another's — the property that makes `buildOutputJson`'s level-by-level
reconstruction well defined. -/
theorem collect_keys_pref_free (fields : JFields)
    (h2 : nodupKeysF fields = true) (h3 : noBackslashF fields = true)
    (h4 : noEmptyKeyF fields = true) :
    (collectAllStringsFromJson fields).keys.Nodup ∧
    List.Pairwise (fun p q => ¬ (dotSplit p <+: dotSplit q) ∧ ¬ (dotSplit q <+: dotSplit p))
      (collectAllStringsFromJson fields).keys := by
  rw [collectAllStringsFromJson_eq]
  show ((collectFields "" fields).map Prod.fst).Nodup ∧ _
  have hseq : ((collectFields "" fields).map Prod.fst).map pathSeq = leafSeqsF fields := by
    rw [List.map_map]
    exact collect_pathSeqs fields h3 h4
  have hpw : List.Pairwise (fun a b => ¬ (a <+: b) ∧ ¬ (b <+: a))
      (((collectFields "" fields).map Prod.fst).map pathSeq) := by
    rw [hseq]
    exact leafSeqs_pairwise fields h2
  rw [List.pairwise_map] at hpw
  constructor
  · have hne : List.Pairwise (fun p q : String => p ≠ q)
        ((collectFields "" fields).map Prod.fst) := by
      refine hpw.imp ?_
      intro p q h hpq
      exact h.1 (hpq ▸ List.prefix_refl _)
    exact hne
  · refine hpw.imp ?_
    intro p q h
    constructor
    · intro hcon
      exact h.1 (by rw [pathSeq, pathSeq]; exact hcon.map _)
    · intro hcon
      exact h.2 (by rw [pathSeq, pathSeq]; exact hcon.map _)

/-- `{"": {"a": "v"}, "a": "x"}`: backslash-free keys, but the empty root
key makes two different leaves share the encoded path `"a"`. -/
def c9doc : JFields :=
  .cons "" (.obj (.cons "a" (.str "v") .nil)) (.cons "a" (.str "x") .nil)

/-- C9 as stated is false: an object with backslash-free keys can still
produce duplicate encoded paths when a root key is the empty string (which
is falsy, so the prefix of its children is dropped). -/
theorem collect_keys_counterexample :
    noBackslashF c9doc = true ∧
    (collectAllStringsFromJson c9doc).keys = ["a", "a"] ∧
    ¬ (collectAllStringsFromJson c9doc).keys.Nodup := by
  refine ⟨by decide, ?_, ?_⟩
  · rw [collectAllStringsFromJson_eq]
    decide
  · rw [collectAllStringsFromJson_eq]
    decide

/-- Concrete instance of `collect_keys_pref_free` on the dotted-key example
document. -/
theorem collect_keys_pref_free_witness :
    (collectAllStringsFromJson c1docW).keys.Nodup :=
  (collect_keys_pref_free c1docW (by decide) (by decide) (by decide)).1

/-! ### Masking (`replaceParameterStringsInJSONValueWithKeepTags`)

The global replace `value.replace(/({{.*?}}|{.*?})/g, m => '<keep>' + m +
'</keep>')` is embedded as the regex engine's left-to-right scan: at each
position first try `{{.*?}}` (lazy: the earliest `}}` reachable through
non-line-terminators), then `{.*?}` at the same position, else move one
character right.  The scan yields the list of (unmatched gap, match) pairs
plus the unmatched tail; rendering the pairs with the wrapper is the
replacement's result, rendering them with `id` is the original string. -/

/-- Lazy search for the earliest `}}` (for `{{.*?}}`): returns the consumed
interior and the rest after the `}}`, failing on a line terminator. -/
def findCloseBB : List Char → Option (List Char × List Char)
  | [] => none
  | '}' :: '}' :: cs => some ([], cs)
  | c :: cs =>
    if isJsLineTerm c then none
    else (findCloseBB cs).map (fun ir => (c :: ir.1, ir.2))

/-- Lazy search for the earliest `}` (for `{.*?}`). -/
def findCloseB : List Char → Option (List Char × List Char)
  | [] => none
  | '}' :: cs => some ([], cs)
  | c :: cs =>
    if isJsLineTerm c then none
    else (findCloseB cs).map (fun ir => (c :: ir.1, ir.2))

/-- Prepend an unmatched character to a scan result. -/
def consU (c : Char) : List (List Char × List Char) × List Char →
    List (List Char × List Char) × List Char
  | ([], t) => ([], c :: t)
  | ((u, m) :: ps, t) => ((c :: u, m) :: ps, t)

/-- The global scan of `/({{.*?}}|{.*?})/g`: successive (gap, match) pairs
and the trailing gap.  One unit of fuel is spent per position step or match,
so `s.length + 1` fuel always suffices. -/
def paramSegsFuel : Nat → List Char → List (List Char × List Char) × List Char
  | 0, s => ([], s)
  | fuel + 1, s =>
    match s with
    | [] => ([], [])
    | '{' :: '{' :: cs =>
      match findCloseBB cs with
      | some ir =>
        let pr := paramSegsFuel fuel ir.2
        (([], '{' :: '{' :: (ir.1 ++ '}' :: '}' :: [])) :: pr.1, pr.2)
      | none =>
        match findCloseB ('{' :: cs) with
        | some ir =>
          let pr := paramSegsFuel fuel ir.2
          (([], '{' :: (ir.1 ++ ['}'])) :: pr.1, pr.2)
        | none => consU '{' (paramSegsFuel fuel ('{' :: cs))
    | '{' :: cs =>
      match findCloseB cs with
      | some ir =>
        let pr := paramSegsFuel fuel ir.2
        (([], '{' :: (ir.1 ++ ['}'])) :: pr.1, pr.2)
      | none => consU '{' (paramSegsFuel fuel cs)
    | c :: cs => consU c (paramSegsFuel fuel cs)

/-- Render the scan result, applying `f` to each match. -/
def renderWith (f : List Char → List Char) :
    List (List Char × List Char) → List Char → List Char
  | [], t => t
  | (u, m) :: ps, t => u ++ f m ++ renderWith f ps t

/-- The `<keep>`-wrapper applied to each regex match. -/
def wrapKeep (m : List Char) : List Char :=
  "<keep>".data ++ m ++ "</keep>".data

/-- `replaceParameterStringsInJSONValueWithKeepTags` from `utils.ts`. -/
def replaceParameterStringsInJSONValueWithKeepTags (value : String) : String :=
  ⟨renderWith wrapKeep (paramSegsFuel (value.data.length + 1) value.data).1
    (paramSegsFuel (value.data.length + 1) value.data).2⟩

theorem findCloseBB_decomp : ∀ (cs i r : List Char), findCloseBB cs = some (i, r) →
    cs = i ++ '}' :: '}' :: r := by
  intro cs
  induction cs using findCloseBB.induct with
  | case1 => intro i r h; cases h
  | case2 cs => intro i r h; rw [findCloseBB] at h; cases h; rfl
  | case3 c cs hne hlt =>
    intro i r h
    rw [findCloseBB] at h
    · rw [if_pos hlt] at h
      cases h
    · exact hne
  | case4 c cs hne hlt ih =>
    intro i r h
    rw [findCloseBB] at h
    · rw [if_neg hlt] at h
      cases hbb : findCloseBB cs with
      | none => rw [hbb] at h; cases h
      | some ir =>
        rw [hbb] at h
        obtain ⟨i2, r2⟩ := ir
        dsimp at h
        cases h
        rw [ih _ _ hbb]
        rfl
    · exact hne

theorem findCloseB_decomp : ∀ (cs i r : List Char), findCloseB cs = some (i, r) →
    cs = i ++ '}' :: r := by
  intro cs
  induction cs using findCloseB.induct with
  | case1 => intro i r h; cases h
  | case2 cs => intro i r h; rw [findCloseB] at h; cases h; rfl
  | case3 c cs hne hlt =>
    intro i r h
    rw [findCloseB] at h
    · rw [if_pos hlt] at h
      cases h
    · exact hne
  | case4 c cs hne hlt ih =>
    intro i r h
    rw [findCloseB] at h
    · rw [if_neg hlt] at h
      cases hb : findCloseB cs with
      | none => rw [hb] at h; cases h
      | some ir =>
        rw [hb] at h
        obtain ⟨i2, r2⟩ := ir
        dsimp at h
        cases h
        rw [ih _ _ hb]
        rfl
    · exact hne

theorem consU_render (f : List Char → List Char) (c : Char)
    (pr : List (List Char × List Char) × List Char) :
    renderWith f (consU c pr).1 (consU c pr).2 = c :: renderWith f pr.1 pr.2 := by
  obtain ⟨ps, t⟩ := pr
  cases ps with
  | nil => rfl
  | cons pm ps =>
    obtain ⟨u, m⟩ := pm
    rfl

theorem consU_matches (c : Char) (pr : List (List Char × List Char) × List Char) :
    ∀ pm ∈ (consU c pr).1, ∃ pm' ∈ pr.1, pm.2 = pm'.2 := by
  obtain ⟨ps, t⟩ := pr
  cases ps with
  | nil => intro pm h; simp [consU] at h
  | cons pm0 ps =>
    obtain ⟨u, m⟩ := pm0
    intro pm h
    rw [show consU c ((u, m) :: ps, t) = ((c :: u, m) :: ps, t) from rfl] at h
    simp only at h
    rcases List.mem_cons.1 h with h | h
    · exact ⟨(u, m), List.mem_cons_self _ _, by rw [h]⟩
    · exact ⟨pm, List.mem_cons_of_mem _ h, rfl⟩

theorem paramSegsFuel_bbsome (fuel : Nat) (cs i r : List Char)
    (hbb : findCloseBB cs = some (i, r)) :
    paramSegsFuel (fuel + 1) ('{' :: '{' :: cs) =
      (([], '{' :: '{' :: (i ++ '}' :: '}' :: [])) :: (paramSegsFuel fuel r).1,
        (paramSegsFuel fuel r).2) := by
  rw [paramSegsFuel, hbb]

theorem paramSegsFuel_bbnone_bsome (fuel : Nat) (cs i r : List Char)
    (hbb : findCloseBB cs = none) (hb : findCloseB ('{' :: cs) = some (i, r)) :
    paramSegsFuel (fuel + 1) ('{' :: '{' :: cs) =
      (([], '{' :: (i ++ ['}'])) :: (paramSegsFuel fuel r).1, (paramSegsFuel fuel r).2) := by
  rw [paramSegsFuel, hbb, hb]

theorem paramSegsFuel_bbnone_bnone (fuel : Nat) (cs : List Char)
    (hbb : findCloseBB cs = none) (hb : findCloseB ('{' :: cs) = none) :
    paramSegsFuel (fuel + 1) ('{' :: '{' :: cs) =
      consU '{' (paramSegsFuel fuel ('{' :: cs)) := by
  rw [paramSegsFuel, hbb, hb]

theorem paramSegsFuel_single_bsome (fuel : Nat) (cs i r : List Char)
    (hne : ∀ cs2, cs = '{' :: cs2 → False) (hb : findCloseB cs = some (i, r)) :
    paramSegsFuel (fuel + 1) ('{' :: cs) =
      (([], '{' :: (i ++ ['}'])) :: (paramSegsFuel fuel r).1, (paramSegsFuel fuel r).2) := by
  rw [paramSegsFuel, hb]
  exact hne

theorem paramSegsFuel_single_bnone (fuel : Nat) (cs : List Char)
    (hne : ∀ cs2, cs = '{' :: cs2 → False) (hb : findCloseB cs = none) :
    paramSegsFuel (fuel + 1) ('{' :: cs) = consU '{' (paramSegsFuel fuel cs) := by
  rw [paramSegsFuel, hb]
  exact hne

theorem paramSegsFuel_char (fuel : Nat) (c : Char) (cs : List Char)
    (hne : c = '{' → False) :
    paramSegsFuel (fuel + 1) (c :: cs) = consU c (paramSegsFuel fuel cs) := by
  rw [paramSegsFuel]
  · intro c2 hc h1
    exact hne hc
  · intro hc
    exact hne hc

theorem paramSegs_spec : ∀ (fuel : Nat) (s : List Char), s.length < fuel →
    renderWith id (paramSegsFuel fuel s).1 (paramSegsFuel fuel s).2 = s ∧
    ∀ pm ∈ (paramSegsFuel fuel s).1, ∃ mi, pm.2 = '{' :: (mi ++ ['}']) := by
  intro fuel s
  induction fuel, s using paramSegsFuel.induct with
  | case1 s => intro h; omega
  | case2 fuel =>
    intro h
    refine ⟨by simp [paramSegsFuel, renderWith], ?_⟩
    intro pm hm
    simp [paramSegsFuel] at hm
  | case3 fuel cs ir hbb ih =>
    intro h
    have hbb' : findCloseBB cs = some (ir.1, ir.2) := by rw [hbb]
    have hdec := findCloseBB_decomp cs ir.1 ir.2 hbb'
    simp only [List.length_cons] at h
    have hlc := congrArg List.length hdec
    simp only [List.length_append, List.length_cons] at hlc
    have hlen : ir.2.length < fuel := by omega
    obtain ⟨ihr, ihm⟩ := ih hlen
    rw [paramSegsFuel_bbsome fuel cs ir.1 ir.2 hbb']
    constructor
    · rw [renderWith, ihr]
      rw [hdec]
      simp
    · intro pm hm
      rcases List.mem_cons.1 hm with hm | hm
      · refine ⟨'{' :: (ir.1 ++ ['}']), ?_⟩
        rw [hm]
        simp
      · exact ihm pm hm
  | case4 fuel cs hbb ir hb ih =>
    intro h
    have hb' : findCloseB ('{' :: cs) = some (ir.1, ir.2) := by rw [hb]
    have hdec := findCloseB_decomp ('{' :: cs) ir.1 ir.2 hb'
    simp only [List.length_cons] at h
    have hlc := congrArg List.length hdec
    simp only [List.length_append, List.length_cons] at hlc
    have hlen : ir.2.length < fuel := by omega
    obtain ⟨ihr, ihm⟩ := ih hlen
    rw [paramSegsFuel_bbnone_bsome fuel cs ir.1 ir.2 hbb hb']
    constructor
    · rw [renderWith, ihr]
      have hgoal : ('{' :: (ir.1 ++ ['}'])) ++ ir.2 = '{' :: '{' :: cs := by
        rw [show ('{' :: (ir.1 ++ ['}'])) ++ ir.2 = '{' :: (ir.1 ++ '}' :: ir.2) by simp,
          ← hdec]
      simpa using hgoal
    · intro pm hm
      rcases List.mem_cons.1 hm with hm | hm
      · exact ⟨ir.1, by rw [hm]⟩
      · exact ihm pm hm
  | case5 fuel cs hbb hb ih =>
    intro h
    simp only [List.length_cons] at h
    have hlen : ('{' :: cs).length < fuel := by simp only [List.length_cons]; omega
    obtain ⟨ihr, ihm⟩ := ih hlen
    rw [paramSegsFuel_bbnone_bnone fuel cs hbb hb]
    constructor
    · rw [consU_render, ihr]
    · intro pm hm
      obtain ⟨pm', hpm', he⟩ := consU_matches '{' _ pm hm
      obtain ⟨mi, hmi⟩ := ihm pm' hpm'
      exact ⟨mi, by rw [he, hmi]⟩
  | case6 fuel cs hne ir hb ih =>
    intro h
    have hb' : findCloseB cs = some (ir.1, ir.2) := by rw [hb]
    have hdec := findCloseB_decomp cs ir.1 ir.2 hb'
    simp only [List.length_cons] at h
    have hlc := congrArg List.length hdec
    simp only [List.length_append, List.length_cons] at hlc
    have hlen : ir.2.length < fuel := by omega
    obtain ⟨ihr, ihm⟩ := ih hlen
    rw [paramSegsFuel_single_bsome fuel cs ir.1 ir.2 hne hb']
    constructor
    · rw [renderWith, ihr]
      have hgoal : ('{' :: (ir.1 ++ ['}'])) ++ ir.2 = '{' :: cs := by
        rw [show ('{' :: (ir.1 ++ ['}'])) ++ ir.2 = '{' :: (ir.1 ++ '}' :: ir.2) by simp,
          ← hdec]
      simpa using hgoal
    · intro pm hm
      rcases List.mem_cons.1 hm with hm | hm
      · exact ⟨ir.1, by rw [hm]⟩
      · exact ihm pm hm
  | case7 fuel cs hne hb ih =>
    intro h
    simp only [List.length_cons] at h
    have hlen : cs.length < fuel := by omega
    obtain ⟨ihr, ihm⟩ := ih hlen
    rw [paramSegsFuel_single_bnone fuel cs hne hb]
    constructor
    · rw [consU_render, ihr]
    · intro pm hm
      obtain ⟨pm', hpm', he⟩ := consU_matches '{' _ pm hm
      obtain ⟨mi, hmi⟩ := ihm pm' hpm'
      exact ⟨mi, by rw [he, hmi]⟩
  | case8 fuel c cs hne1 hne2 ih =>
    intro h
    simp only [List.length_cons] at h
    have hlen : cs.length < fuel := by omega
    obtain ⟨ihr, ihm⟩ := ih hlen
    rw [paramSegsFuel_char fuel c cs (fun hc => hne2 hc)]
    constructor
    · rw [consU_render, ihr]
    · intro pm hm
      obtain ⟨pm', hpm', he⟩ := consU_matches c _ pm hm
      obtain ⟨mi, hmi⟩ := ihm pm' hpm'
      exact ⟨mi, by rw [he, hmi]⟩

/-! ### Occurrence-splitting toolbox

To reason about the deletion loops we decompose an occurrence of a token in
a concatenation: it lies in the left part, in the right part, or crosses the
boundary with a nonempty token prefix/suffix on each side. -/

theorem pref_of_append_pref {p x y : List Char} (h : p <+: x ++ y)
    (hl : p.length ≤ x.length) : p <+: x := by
  have hp : p = (x ++ y).take p.length := List.prefix_iff_eq_take.1 h
  rw [List.take_append_eq_append_take] at hp
  rw [Nat.sub_eq_zero_of_le hl, List.take_zero, List.append_nil] at hp
  rw [hp]
  exact ⟨x.drop p.length, List.take_append_drop _ _⟩

theorem suff_of_append_suff {s x y : List Char} (h : s <:+ x ++ y)
    (hl : s.length ≤ y.length) : s <:+ y := by
  rw [← List.reverse_prefix] at h ⊢
  rw [List.reverse_append] at h
  exact pref_of_append_pref h (by simpa using hl)

theorem infix_append_split (K a b : List Char) (h : K <:+: a ++ b) :
    K <:+: a ∨ K <:+: b ∨
      ∃ n, 0 < n ∧ n < K.length ∧ K.take n <:+ a ∧ K.drop n <+: b := by
  obtain ⟨pre, post, heq⟩ := h
  by_cases h1 : pre.length + K.length ≤ a.length
  · left
    have e1 : pre ++ K ++ post =
        a.take (pre.length + K.length) ++ (a.drop (pre.length + K.length) ++ b) := by
      rw [← List.append_assoc, List.take_append_drop]
      exact heq
    have hlen : (pre ++ K).length = (a.take (pre.length + K.length)).length := by
      rw [List.length_append, List.length_take]
      omega
    obtain ⟨hA, _⟩ := List.append_inj e1 hlen
    exact ⟨pre, a.drop (pre.length + K.length), by rw [hA, List.take_append_drop]⟩
  · by_cases h2 : a.length ≤ pre.length
    · right; left
      have e1 : pre.take a.length ++ (pre.drop a.length ++ (K ++ post)) = a ++ b := by
        rw [← List.append_assoc, List.take_append_drop, ← List.append_assoc]
        exact heq
      have hlen : (pre.take a.length).length = a.length := by
        rw [List.length_take]
        omega
      obtain ⟨_, hB⟩ := List.append_inj e1 hlen
      exact ⟨pre.drop a.length, post, by rw [List.append_assoc]; exact hB⟩
    · right; right
      refine ⟨a.length - pre.length, by omega, by omega, ?_, ?_⟩
      · have e1 : (pre ++ K.take (a.length - pre.length)) ++
            (K.drop (a.length - pre.length) ++ post) = a ++ b := by
          rw [← List.append_assoc, List.append_assoc pre, List.take_append_drop]
          exact heq
        have hlen : (pre ++ K.take (a.length - pre.length)).length = a.length := by
          rw [List.length_append, List.length_take]
          omega
        obtain ⟨hA, _⟩ := List.append_inj e1 hlen
        exact ⟨pre, hA⟩
      · have e1 : (pre ++ K.take (a.length - pre.length)) ++
            (K.drop (a.length - pre.length) ++ post) = a ++ b := by
          rw [← List.append_assoc, List.append_assoc pre, List.take_append_drop]
          exact heq
        have hlen : (pre ++ K.take (a.length - pre.length)).length = a.length := by
          rw [List.length_append, List.length_take]
          omega
        obtain ⟨_, hB⟩ := List.append_inj e1 hlen
        exact ⟨post, hB⟩

theorem not_infix_append (K a b : List Char) (ha : ¬ K <:+: a) (hb : ¬ K <:+: b)
    (hcross : ∀ n, 0 < n → n < K.length → ¬ (K.take n <:+ a ∧ K.drop n <+: b)) :
    ¬ K <:+: a ++ b := by
  intro h
  rcases infix_append_split K a b h with h | h | ⟨n, hn1, hn2, hs, hp⟩
  · exact ha h
  · exact hb h
  · exact hcross n hn1 hn2 ⟨hs, hp⟩

theorem not_cross_right_head (K b' b : List Char) (c : Char) (hb : b = c :: b')
    (hcK : c ∉ K) : ∀ n, 0 < n → n < K.length → ¬ (K.drop n <+: b) := by
  intro n h1 h2 hpf
  cases hd : K.drop n with
  | nil =>
    have := congrArg List.length hd
    simp only [List.length_drop, List.length_nil] at this
    omega
  | cons d ds =>
    rw [hd, hb] at hpf
    have hdc : d = c := (List.cons_prefix_cons.1 hpf).1
    apply hcK
    rw [← hdc]
    exact (List.drop_suffix n K).subset (hd ▸ List.mem_cons_self d ds)

theorem not_cross_left_last (K a' a : List Char) (c : Char) (ha : a = a' ++ [c])
    (hcK : c ∉ K) : ∀ n, 0 < n → n < K.length → ¬ (K.take n <:+ a) := by
  intro n h1 h2 hsf
  rw [← List.reverse_prefix, ha, List.reverse_append] at hsf
  simp only [List.reverse_cons, List.reverse_nil, List.nil_append,
    List.singleton_append] at hsf
  cases hd : (K.take n).reverse with
  | nil =>
    have := congrArg List.length hd
    simp only [List.length_reverse, List.length_take, List.length_nil] at this
    omega
  | cons d ds =>
    rw [hd] at hsf
    have hdc : d = c := (List.cons_prefix_cons.1 hsf).1
    apply hcK
    have hdm : d ∈ (K.take n).reverse := hd ▸ List.mem_cons_self d ds
    rw [List.mem_reverse] at hdm
    rw [← hdc]
    exact ((List.take_append_drop n K) ▸ List.mem_append_left _ hdm : d ∈ K)

theorem replaceFirst_at (K : List Char) (hK : K ≠ [])
    (hno : ∀ n, 0 < n → n < K.length → ¬ (K.drop n <+: K)) :
    ∀ (P R : List Char), ¬ K <:+: P →
      replaceFirstLit K [] (P ++ (K ++ R)) = some (P ++ R) := by
  intro P
  induction P with
  | nil =>
    intro R _
    simp only [List.nil_append]
    cases hKc : K with
    | nil => exact absurd hKc hK
    | cons k0 ks =>
      rw [show (k0 :: ks) ++ R = k0 :: (ks ++ R) from rfl]
      rw [replaceFirstLit]
      rw [if_pos (List.isPrefixOf_iff_prefix.2
        ⟨R, by rw [show (k0 :: ks) ++ R = k0 :: (ks ++ R) from rfl]⟩)]
      rw [show (k0 :: (ks ++ R)) = (k0 :: ks) ++ R from rfl, List.drop_left]
      rfl
  | cons c P' ih =>
    intro R hPfree
    rw [show (c :: P') ++ (K ++ R) = c :: (P' ++ (K ++ R)) from rfl]
    rw [replaceFirstLit]
    rw [if_neg ?hnp]
    case hnp =>
      intro hcon
      have hpf := List.isPrefixOf_iff_prefix.1 hcon
      have hpf2 : K <+: (c :: P') ++ (K ++ R) := hpf
      by_cases hlen : K.length ≤ (c :: P').length
      · exact hPfree (pref_of_append_pref hpf2 hlen).isInfix
      · push_neg at hlen
        obtain ⟨t, ht⟩ := hpf2
        have hm0 : 0 < (c :: P').length := by simp
        have h1 : K.drop ((c :: P').length) <+: K ++ R := by
          have hd := congrArg (List.drop ((c :: P').length)) ht
          rw [List.drop_append_eq_append_drop, List.drop_append_eq_append_drop] at hd
          rw [Nat.sub_eq_zero_of_le (le_of_lt hlen), List.drop_zero] at hd
          rw [List.drop_length, Nat.sub_self, List.drop_zero, List.nil_append] at hd
          exact ⟨t, hd⟩
        have h3 : K.drop ((c :: P').length) <+: K :=
          pref_of_append_pref h1 (by rw [List.length_drop]; omega)
        exact hno ((c :: P').length) hm0 hlen h3
    rw [ih R (fun hcon => hPfree (List.infix_cons_iff.2 (Or.inr hcon)))]
    rfl

theorem renderWith_id_infix : ∀ (ps : List (List Char × List Char)) (t : List Char),
    (∀ pm ∈ ps, pm.1 <:+: renderWith id ps t ∧ pm.2 <:+: renderWith id ps t) ∧
    t <:+: renderWith id ps t := by
  intro ps
  induction ps with
  | nil =>
    intro t
    exact ⟨by intro pm h; simp at h, List.infix_refl t⟩
  | cons pm0 ps ih =>
    intro t
    obtain ⟨u, m⟩ := pm0
    have hrw : renderWith id ((u, m) :: ps) t = u ++ (m ++ renderWith id ps t) := by
      rw [renderWith]
      simp [List.append_assoc]
    have hsuf : renderWith id ps t <:+ renderWith id ((u, m) :: ps) t := by
      rw [hrw]
      exact ⟨u ++ m, by rw [List.append_assoc]⟩
    constructor
    · intro pm hpm
      rcases List.mem_cons.1 hpm with h | h
      · subst h
        constructor
        · rw [hrw]
          have hu : u <+: u ++ (m ++ renderWith id ps t) := ⟨m ++ renderWith id ps t, rfl⟩
          exact hu.isInfix
        · rw [hrw]
          exact List.infix_append' u m (renderWith id ps t)
      · have hin := (ih t).1 pm h
        exact ⟨hin.1.trans hsuf.isInfix, hin.2.trans hsuf.isInfix⟩
    · exact (ih t).2.trans hsuf.isInfix

/-- The `<keep>` token as a character list. -/
def keepOpen : List Char := "<keep>".data

/-- The `</keep>` token as a character list. -/
def keepClose : List Char := "</keep>".data

theorem keepOpen_ne_nil : keepOpen ≠ [] := by decide

theorem keepClose_ne_nil : keepClose ≠ [] := by decide

theorem keepOpen_len : keepOpen.length = 6 := by decide

theorem keepClose_len : keepClose.length = 7 := by decide

theorem keepOpen_no_overlap : ∀ n, n < keepOpen.length → 0 < n →
    ¬ (keepOpen.drop n <+: keepOpen) := by decide

theorem keepClose_no_overlap : ∀ n, n < keepClose.length → 0 < n →
    ¬ (keepClose.drop n <+: keepClose) := by decide

theorem keepOpen_drop_close : ∀ n, n < keepOpen.length → 0 < n →
    ¬ (keepOpen.drop n <+: keepClose) := by decide

theorem keepOpen_take_close : ∀ n, n < keepOpen.length → 0 < n →
    ¬ (keepOpen.take n <:+ keepClose) := by decide

theorem keepClose_take_brace : ∀ n, n < keepClose.length → 0 < n →
    ¬ ('\x7d' ∈ keepClose.take n) := by decide

theorem keepOpen_not_in_close : ¬ keepOpen <:+: keepClose := by decide

theorem brace_open_not_mem_keepOpen : '\x7b' ∉ keepOpen := by decide

theorem brace_open_not_mem_keepClose : '\x7b' ∉ keepClose := by decide

theorem brace_close_not_mem_keepClose : '\x7d' ∉ keepClose := by decide

theorem pend_no_cross_open (P a : List Char)
    (hPend : P = [] ∨ ∃ P0, P = P0 ++ keepClose) :
    ∀ n, 0 < n → n < keepOpen.length →
      ¬ (keepOpen.take n <:+ P ∧ keepOpen.drop n <+: a) := by
  intro n h1 h2 hc
  obtain ⟨hs, _⟩ := hc
  rcases hPend with rfl | ⟨P0, rfl⟩
  · obtain ⟨w, hw⟩ := hs
    have := congrArg List.length hw
    simp only [List.length_append, List.length_take, List.length_nil] at this
    have h6 : keepOpen.length = 6 := keepOpen_len
    omega
  · have hlen : (keepOpen.take n).length ≤ keepClose.length := by
      rw [List.length_take, keepClose_len]
      have := keepOpen_len
      omega
    exact keepOpen_take_close n h2 h1 (suff_of_append_suff hs hlen)

theorem brace_no_cross (K X m a : List Char) (hm : ∃ mi, m = '\x7b' :: (mi ++ ['\x7d']))
    (hbr : '\x7b' ∉ K) :
    ∀ n, 0 < n → n < K.length → ¬ (K.take n <:+ X ∧ K.drop n <+: m) := by
  intro n h1 h2 hc
  obtain ⟨mi, hmi⟩ := hm
  exact not_cross_right_head K (mi ++ ['\x7d']) m '\x7b' hmi hbr n h1 h2 hc.2

theorem close_no_cross_open (A a : List Char) :
    ∀ n, 0 < n → n < keepOpen.length →
      ¬ (keepOpen.take n <:+ A ∧ keepOpen.drop n <+: keepClose) := by
  intro n h1 h2 hc
  exact keepOpen_drop_close n h2 h1 hc.2

theorem phase1_run :
    ∀ (ps : List (List Char × List Char)) (fuel : Nat) (t P : List Char),
      ps.length ≤ fuel →
      ¬ keepOpen <:+: P → (P = [] ∨ ∃ P0, P = P0 ++ keepClose) →
      (∀ pm ∈ ps, ¬ keepOpen <:+: pm.1 ∧ ¬ keepOpen <:+: pm.2 ∧
        ∃ mi, pm.2 = '\x7b' :: (mi ++ ['\x7d'])) →
      ¬ keepOpen <:+: t →
      replaceAllLit keepOpen [] fuel (P ++ renderWith wrapKeep ps t) =
        some (P ++ renderWith (fun m => m ++ keepClose) ps t) := by
  intro ps
  induction ps with
  | nil =>
    intro fuel t P hfuel hPfree hPend hgood htfree
    show replaceAllLit keepOpen [] fuel (P ++ t) = some (P ++ t)
    have hfree : ¬ keepOpen <:+: P ++ t :=
      not_infix_append _ _ _ hPfree htfree (pend_no_cross_open P t hPend)
    rw [replaceAllLit, (replaceFirstLit_eq_none _ _ _).2 hfree]
  | cons pm0 ps ih =>
    intro fuel t P hfuel hPfree hPend hgood htfree
    obtain ⟨u, m⟩ := pm0
    obtain ⟨hufree, hmfree, hmshape⟩ := hgood (u, m) (List.mem_cons_self _ _)
    have hXfree : ¬ keepOpen <:+: P ++ u :=
      not_infix_append _ _ _ hPfree hufree (pend_no_cross_open P u hPend)
    have hshape : P ++ renderWith wrapKeep ((u, m) :: ps) t =
        (P ++ u) ++ (keepOpen ++ ((m ++ keepClose) ++ renderWith wrapKeep ps t)) := by
      rw [renderWith, wrapKeep]
      show P ++ (u ++ ("<keep>".data ++ m ++ "</keep>".data) ++ renderWith wrapKeep ps t) = _
      simp [List.append_assoc, keepOpen, keepClose]
    cases fuel with
    | zero => simp at hfuel
    | succ f =>
      rw [hshape, replaceAllLit,
        replaceFirst_at keepOpen keepOpen_ne_nil
          (fun n a b => keepOpen_no_overlap n b a) (P ++ u)
          ((m ++ keepClose) ++ renderWith wrapKeep ps t) hXfree]
      dsimp only
      have hre : (P ++ u) ++ ((m ++ keepClose) ++ renderWith wrapKeep ps t) =
          (((P ++ u) ++ m) ++ keepClose) ++ renderWith wrapKeep ps t := by
        simp [List.append_assoc]
      rw [hre]
      have hXmfree : ¬ keepOpen <:+: (P ++ u) ++ m :=
        not_infix_append _ _ _ hXfree hmfree
          (brace_no_cross keepOpen (P ++ u) m m hmshape brace_open_not_mem_keepOpen)
      have hP'free : ¬ keepOpen <:+: ((P ++ u) ++ m) ++ keepClose :=
        not_infix_append _ _ _ hXmfree keepOpen_not_in_close
          (close_no_cross_open ((P ++ u) ++ m) keepClose)
      rw [ih f t (((P ++ u) ++ m) ++ keepClose) (by simpa using hfuel) hP'free
        (Or.inr ⟨(P ++ u) ++ m, rfl⟩)
        (fun pm hpm => hgood pm (List.mem_cons_of_mem _ hpm)) htfree]
      congr 1
      rw [renderWith]
      simp [List.append_assoc]

theorem pend_no_cross_close (P a : List Char)
    (hPend : P = [] ∨ ∃ P0, P = P0 ++ ['\x7d']) :
    ∀ n, 0 < n → n < keepClose.length →
      ¬ (keepClose.take n <:+ P ∧ keepClose.drop n <+: a) := by
  intro n h1 h2 hc
  obtain ⟨hs, _⟩ := hc
  rcases hPend with rfl | ⟨P0, rfl⟩
  · obtain ⟨w, hw⟩ := hs
    have := congrArg List.length hw
    simp only [List.length_append, List.length_take, List.length_nil] at this
    have h7 : keepClose.length = 7 := keepClose_len
    omega
  · exact not_cross_left_last keepClose P0 (P0 ++ ['\x7d']) '\x7d' rfl
      brace_close_not_mem_keepClose n h1 h2 hs

theorem phase2_run :
    ∀ (ps : List (List Char × List Char)) (fuel : Nat) (t P : List Char),
      ps.length ≤ fuel →
      ¬ keepClose <:+: P → (P = [] ∨ ∃ P0, P = P0 ++ ['\x7d']) →
      (∀ pm ∈ ps, ¬ keepClose <:+: pm.1 ∧ ¬ keepClose <:+: pm.2 ∧
        ∃ mi, pm.2 = '\x7b' :: (mi ++ ['\x7d'])) →
      ¬ keepClose <:+: t →
      replaceAllLit keepClose [] fuel (P ++ renderWith (fun m => m ++ keepClose) ps t) =
        some (P ++ renderWith id ps t) := by
  intro ps
  induction ps with
  | nil =>
    intro fuel t P hfuel hPfree hPend hgood htfree
    show replaceAllLit keepClose [] fuel (P ++ t) = some (P ++ t)
    have hfree : ¬ keepClose <:+: P ++ t :=
      not_infix_append _ _ _ hPfree htfree (pend_no_cross_close P t hPend)
    rw [replaceAllLit, (replaceFirstLit_eq_none _ _ _).2 hfree]
  | cons pm0 ps ih =>
    intro fuel t P hfuel hPfree hPend hgood htfree
    obtain ⟨u, m⟩ := pm0
    obtain ⟨hufree, hmfree, hmshape⟩ := hgood (u, m) (List.mem_cons_self _ _)
    have hXfree : ¬ keepClose <:+: P ++ u :=
      not_infix_append _ _ _ hPfree hufree (pend_no_cross_close P u hPend)
    have hXmfree : ¬ keepClose <:+: (P ++ u) ++ m :=
      not_infix_append _ _ _ hXfree hmfree
        (brace_no_cross keepClose (P ++ u) m m hmshape brace_open_not_mem_keepClose)
    have hshape : P ++ renderWith (fun m => m ++ keepClose) ((u, m) :: ps) t =
        ((P ++ u) ++ m) ++ (keepClose ++ renderWith (fun m => m ++ keepClose) ps t) := by
      rw [renderWith]
      simp [List.append_assoc]
    cases fuel with
    | zero => simp at hfuel
    | succ f =>
      rw [hshape, replaceAllLit,
        replaceFirst_at keepClose keepClose_ne_nil
          (fun n a b => keepClose_no_overlap n b a) ((P ++ u) ++ m)
          (renderWith (fun m => m ++ keepClose) ps t) hXmfree]
      dsimp only
      obtain ⟨mi, hmi⟩ := hmshape
      have hP'end : (P ++ u) ++ m = ((P ++ u) ++ ('\x7b' :: mi)) ++ ['\x7d'] := by
        have hmi2 : m = '\x7b' :: (mi ++ ['\x7d']) := hmi
        rw [hmi2]
        simp
      rw [ih f t ((P ++ u) ++ m) (by simpa using hfuel) hXmfree
        (Or.inr ⟨(P ++ u) ++ ('\x7b' :: mi), hP'end⟩)
        (fun pm hpm => hgood pm (List.mem_cons_of_mem _ hpm)) htfree]
      congr 1
      rw [renderWith]
      simp [List.append_assoc]

theorem renderWith_length_ge (f : List Char → List Char)
    (hf : ∀ m, 1 ≤ (f m).length) :
    ∀ (ps : List (List Char × List Char)) (t : List Char),
      ps.length ≤ (renderWith f ps t).length := by
  intro ps
  induction ps with
  | nil => intro t; simp [renderWith]
  | cons pm ps ih =>
    intro t
    obtain ⟨u, m⟩ := pm
    rw [renderWith]
    simp only [List.length_append, List.length_cons]
    have h1 := ih t
    have h2 := hf m
    omega

theorem mask_unmask_data (ps : List (List Char × List Char)) (t L : List Char)
    (hid : renderWith id ps t = L)
    (hshape : ∀ pm ∈ ps, ∃ mi, pm.2 = '\x7b' :: (mi ++ ['\x7d']))
    (hOfree : ¬ keepOpen <:+: L) (hCfree : ¬ keepClose <:+: L) :
    stripAll keepClose (stripAll keepOpen (renderWith wrapKeep ps t)) = L := by
  have hinf := renderWith_id_infix ps t
  rw [hid] at hinf
  have hgood1 : ∀ pm ∈ ps, ¬ keepOpen <:+: pm.1 ∧ ¬ keepOpen <:+: pm.2 ∧
      ∃ mi, pm.2 = '\x7b' :: (mi ++ ['\x7d']) := by
    intro pm hpm
    obtain ⟨h1, h2⟩ := hinf.1 pm hpm
    exact ⟨fun hc => hOfree (hc.trans h1), fun hc => hOfree (hc.trans h2), hshape pm hpm⟩
  have hgood2 : ∀ pm ∈ ps, ¬ keepClose <:+: pm.1 ∧ ¬ keepClose <:+: pm.2 ∧
      ∃ mi, pm.2 = '\x7b' :: (mi ++ ['\x7d']) := by
    intro pm hpm
    obtain ⟨h1, h2⟩ := hinf.1 pm hpm
    exact ⟨fun hc => hCfree (hc.trans h1), fun hc => hCfree (hc.trans h2), hshape pm hpm⟩
  have htO : ¬ keepOpen <:+: t := fun hc => hOfree (hc.trans hinf.2)
  have htC : ¬ keepClose <:+: t := fun hc => hCfree (hc.trans hinf.2)
  have hlen1 : ps.length ≤ (renderWith wrapKeep ps t).length := by
    refine renderWith_length_ge wrapKeep ?_ ps t
    intro m
    have h6 : ("<keep>".data).length = 6 := by decide
    have h7 : ("</keep>".data).length = 7 := by decide
    rw [wrapKeep]
    simp only [List.length_append, h6, h7]
    omega
  have h1 := phase1_run ps ((renderWith wrapKeep ps t).length + 1) t []
    (by omega) (by decide) (Or.inl rfl) hgood1 htO
  simp only [List.nil_append] at h1
  have hs1 : stripAll keepOpen (renderWith wrapKeep ps t) =
      renderWith (fun m => m ++ keepClose) ps t :=
    stripAll_eq_of_fuel keepOpen keepOpen_ne_nil _ _ _ h1
  have hlen2 : ps.length ≤ (renderWith (fun m => m ++ keepClose) ps t).length := by
    refine renderWith_length_ge _ ?_ ps t
    intro m
    show 1 ≤ (m ++ keepClose).length
    simp only [List.length_append, keepClose_len]
    omega
  have h2 := phase2_run ps ((renderWith (fun m => m ++ keepClose) ps t).length + 1) t []
    (by omega) (by decide) (Or.inl rfl) hgood2 htC
  simp only [List.nil_append] at h2
  have hs2 : stripAll keepClose (renderWith (fun m => m ++ keepClose) ps t) =
      renderWith id ps t :=
    stripAll_eq_of_fuel keepClose keepClose_ne_nil _ _ _ h2
  rw [hs1, hs2, hid]

theorem unmask_masked (ps : List (List Char × List Char)) (t L : List Char)
    (hid : renderWith id ps t = L)
    (hshape : ∀ pm ∈ ps, ∃ mi, pm.2 = '\x7b' :: (mi ++ ['\x7d']))
    (hOfree : ¬ keepOpen <:+: L) (hCfree : ¬ keepClose <:+: L) :
    removeKeepTagsFromString ⟨renderWith wrapKeep ps t⟩ = ⟨L⟩ := by
  cases ps with
  | nil =>
    have ht : t = L := hid
    have hg : jsIncludes ⟨renderWith wrapKeep [] t⟩ "<keep>" = false := by
      cases hb : jsIncludes ⟨renderWith wrapKeep [] t⟩ "<keep>" with
      | false => rfl
      | true =>
        have hocc : "<keep>".data <:+: renderWith wrapKeep [] t :=
          (jsIncludesAux_iff _ _).1 hb
        rw [renderWith, ht] at hocc
        exact absurd hocc hOfree
    rw [removeKeepTagsFromString, hg]
    show (⟨renderWith wrapKeep [] t⟩ : String) = ⟨L⟩
    rw [renderWith, ht]
  | cons pm0 ps' =>
    obtain ⟨u, m⟩ := pm0
    have hocc : "<keep>".data <:+: renderWith wrapKeep ((u, m) :: ps') t := by
      refine ⟨u, m ++ "</keep>".data ++ renderWith wrapKeep ps' t, ?_⟩
      rw [renderWith, wrapKeep]
      simp [List.append_assoc]
    have hg : jsIncludes ⟨renderWith wrapKeep ((u, m) :: ps') t⟩ "<keep>" = true :=
      (jsIncludesAux_iff _ _).2 hocc
    rw [removeKeepTagsFromString, hg]
    show (⟨stripAll "</keep>".data
        (stripAll "<keep>".data (renderWith wrapKeep ((u, m) :: ps') t))⟩ : String) = ⟨L⟩
    exact congrArg String.mk (mask_unmask_data ((u, m) :: ps') t L hid hshape hOfree hCfree)

theorem mask_unmask (x : String)
    (hopen : jsIncludes x "<keep>" = false)
    (hclose : jsIncludes x "</keep>" = false) :
    removeKeepTagsFromString (replaceParameterStringsInJSONValueWithKeepTags x) = x := by
  have hOfree : ¬ keepOpen <:+: x.data := by
    intro h
    have h2 : jsIncludes x "<keep>" = true := (jsIncludesAux_iff "<keep>".data x.data).2 h
    rw [hopen] at h2
    cases h2
  have hCfree : ¬ keepClose <:+: x.data := by
    intro h
    have h2 : jsIncludes x "</keep>" = true := (jsIncludesAux_iff "</keep>".data x.data).2 h
    rw [hclose] at h2
    cases h2
  obtain ⟨hid, hshape⟩ := paramSegs_spec (x.data.length + 1) x.data (Nat.lt_succ_self _)
  have h := unmask_masked (paramSegsFuel (x.data.length + 1) x.data).1
    (paramSegsFuel (x.data.length + 1) x.data).2 x.data hid hshape hOfree hCfree
  rw [replaceParameterStringsInJSONValueWithKeepTags, h]

/-- C7: for every string that contains neither "<keep>" nor "</keep>",
unmasking after masking restores the string exactly:
`removeKeepTagsFromString (replaceParameterStringsInJSONValueWithKeepTags x) = x`;
and on the example input "Hi \x7b\x7bname\x7d\x7d, you have \x7bcount\x7d items"
the masked intermediate wraps both brace-delimited placeholders in the
neutral keep-marker pair. -/
theorem mask_round_trip :
    (∀ x : String, jsIncludes x "<keep>" = false → jsIncludes x "</keep>" = false →
      removeKeepTagsFromString (replaceParameterStringsInJSONValueWithKeepTags x) = x) ∧
    replaceParameterStringsInJSONValueWithKeepTags
        "Hi \x7b\x7bname\x7d\x7d, you have \x7bcount\x7d items" =
      "Hi <keep>\x7b\x7bname\x7d\x7d</keep>, you have <keep>\x7bcount\x7d</keep> items" := by
  constructor
  · intro x h1 h2
    exact mask_unmask x h1 h2
  · decide

/-- Concrete instance of `mask_round_trip`: the example string contains
neither marker token, and masking then unmasking returns it exactly. -/
theorem mask_round_trip_witness :
    jsIncludes "Hi \x7b\x7bname\x7d\x7d, you have \x7bcount\x7d items" "<keep>" = false ∧
    jsIncludes "Hi \x7b\x7bname\x7d\x7d, you have \x7bcount\x7d items" "</keep>" = false ∧
    removeKeepTagsFromString (replaceParameterStringsInJSONValueWithKeepTags
        "Hi \x7b\x7bname\x7d\x7d, you have \x7bcount\x7d items") =
      "Hi \x7b\x7bname\x7d\x7d, you have \x7bcount\x7d items" :=
  ⟨by decide, by decide,
    mask_round_trip.1 "Hi \x7b\x7bname\x7d\x7d, you have \x7bcount\x7d items"
      (by decide) (by decide)⟩
